import Mathlib

/-!
Verification of the categorization and deduplication engine of the
lunchmoney-fintoc-api repository, shallowly embedded in Lean 4.

Source files embedded here: src/sync.js (dedup + processing loop + summary,
and the utils it uses: generateTransactionFingerprint, batchArray),
src/categorize.js (calculateSimilarity, findBestMatch, getCategoriesMap,
getCategoryId, sanitizePayee, assignCategoryId) and src/learnLunchMoney.js
(buildMemoryFromLunchMoney).

Modelling conventions:
* JavaScript strings are Lean String; amounts are integer cents
  (signed decimals with two fractional digits in major units), and the two
  JS renderings used by the code are modelled exactly:
  Number.prototype.toFixed(2) as formatCents and template interpolation
  of a number as jsNumToString (trailing fractional zeros stripped).
* JS objects used as ordered maps are association lists in insertion order;
  property update keeps the position of an existing key and appends a new key.
* JS truthiness on optional strings (null/undefined/empty are falsy) is
  optTruthy; the patterns a || b and a || two defaults are modelled by
  jsOrOpt and optOrEmpty.
* The SHA-256 digest is an abstract hash : String -> String parameter applied
  to the exact pre-hash key the code builds.
* Remote calls are oracles: the category-list fetch is an
  Except String (List RawCategory) value, per-movement categorization in the
  sync loop is a state-threading oracle (retry wrappers are folded into the
  oracle outcome, which models the result after retries), and per-batch
  insertion is an indexed Except String Unit oracle.
* console logging and the error-message sanitizer have no observable effect
  on the values the claims are about and are not modelled.
-/

/-- JS truthiness of a possibly-absent string: null/undefined/"" are falsy. -/
def optTruthy : Option String → Bool
  | none => false
  | some s => s ≠ ""

/-- Models the JS template fragment for an optional value x as in x || '':
the empty string when absent, the string itself otherwise. -/
def optOrEmpty : Option String → String
  | none => ""
  | some s => s

/-- Models JS a || b on optional strings: b when a is falsy. -/
def jsOrOpt (a b : Option String) : Option String :=
  if optTruthy a then a else b

/-- Models JS categoryId || null on numbers: 0 is falsy and becomes null. -/
def jsOrNullNat : Option Nat → Option Nat
  | none => none
  | some n => if n = 0 then none else some n

/-- Per-character lower-casing, modelling String.prototype.toLowerCase(). -/
def toLowerStr (s : String) : String :=
  String.mk (s.data.map Char.toLower)

/-- Models String.prototype.includes(sub): some position of s starts with sub. -/
def strIncludes (s sub : String) : Bool :=
  (List.range (s.data.length + 1)).any (fun i => sub.data.isPrefixOf (s.data.drop i))

/-- Drops leading and trailing whitespace from a character list. -/
def trimChars (l : List Char) : List Char :=
  ((l.dropWhile Char.isWhitespace).reverse.dropWhile Char.isWhitespace).reverse

/-- Models String.prototype.trim(). -/
def strTrim (s : String) : String :=
  String.mk (trimChars s.data)

/-- Characters removed by sanitizePayee's regex [<>"'/\\]. -/
def dangerousChar (c : Char) : Bool :=
  c = '<' || c = '>' || c = '"' || c = '\'' || c = '/' || c = '\\'

/-- Embeds sanitizePayee (src/categorize.js): strip the dangerous characters,
trim, then truncate to 255 characters, in that order. The payee-falsy early
return yields "" and is absorbed by the same pipeline on "". -/
def sanitizePayee (p : String) : String :=
  String.mk ((trimChars (p.data.filter (fun c => !dangerousChar c))).take 255)

/-- Little-endian base-10 digits of n, computed with explicit fuel so that the
definition is structurally recursive and kernel-reducible. -/
def toDigitsRev : Nat → Nat → List Nat
  | 0, _ => []
  | fuel + 1, n => if n < 10 then [n] else (n % 10) :: toDigitsRev fuel (n / 10)

/-- Little-endian base-10 digits of n (never empty; digits 0-9). -/
def natDigits (n : Nat) : List Nat :=
  toDigitsRev (n + 1) n

/-- Decimal rendering of a natural number. -/
def natToString10 (n : Nat) : String :=
  String.mk ((natDigits n).reverse.map Nat.digitChar)

/-- Models Number.prototype.toFixed(2) on the value cents/100: sign, integer
part, a dot and exactly two fractional digits. -/
def formatCents (c : Int) : String :=
  (if c < 0 then "-" else "") ++ natToString10 (c.natAbs / 100) ++ "." ++
    (if c.natAbs % 100 < 10 then "0" else "") ++ natToString10 (c.natAbs % 100)

/-- Fractional suffix of the default JS rendering of cents/100: empty when the
value is integral, one digit when the cent part is a multiple of ten, two
digits otherwise (trailing zeros stripped, as String(x) does). -/
def jsFracStr (r : Nat) : String :=
  if r = 0 then ""
  else if r % 10 = 0 then "." ++ natToString10 (r / 10)
  else "." ++ natToString10 (r / 10) ++ natToString10 (r % 10)

/-- Models the default JS string interpolation of the number cents/100
(as produced by a template literal on a transaction amount). -/
def jsNumToString (c : Int) : String :=
  (if c < 0 then "-" else "") ++ natToString10 (c.natAbs / 100) ++ jsFracStr (c.natAbs % 100)

/-- Ordered association list in JS-object insertion order. -/
abbrev Memory := List (String × String)

/-- Category map: lower-cased category name to numeric id, insertion order. -/
abbrev CatMap := List (String × Nat)

/-- First value stored under a key (JS property read). -/
def assocGet {α : Type} (m : List (String × α)) (k : String) : Option α :=
  match m with
  | [] => none
  | e :: es => if e.1 = k then some e.2 else assocGet es k

/-- JS property write: update an existing key in place, else append. -/
def assocSet {α : Type} (m : List (String × α)) (k : String) (v : α) : List (String × α) :=
  match m with
  | [] => [(k, v)]
  | e :: es => if e.1 = k then (k, v) :: es else e :: assocSet es k v

/-- Adjacent character pairs of a string's character list. -/
def strBigrams : List Char → List (Char × Char)
  | a :: b :: rest => (a, b) :: strBigrams (b :: rest)
  | _ => []

/-- Distinct elements of a list, first occurrence kept in order, modelling
construction of a JS Set and its iteration order. -/
def setList {α : Type} [DecidableEq α] (l : List α) : List α :=
  l.foldl (fun acc x => if x ∈ acc then acc else acc ++ [x]) []

/-- Embeds calculateSimilarity (src/categorize.js): Dice coefficient over the
case-folded bigram sets, with the early returns of the code (either argument
falsy, equal after folding, either folded argument shorter than 2). The float
quotient is modelled as the exact rational, written with mkRat so that it is
kernel-computable. -/
def calculateSimilarity (str1 str2 : String) : ℚ :=
  if str1 = "" || str2 = "" then 0
  else
    let a := toLowerStr str1
    let b := toLowerStr str2
    if a = b then 1
    else if a.data.length < 2 || b.data.length < 2 then 0
    else
      let aB := setList (strBigrams a.data)
      let bB := setList (strBigrams b.data)
      let inter := aB.filter (fun x => x ∈ bB)
      mkRat (2 * inter.length) (aB.length + bB.length)

/-- Result record of findBestMatch. -/
structure BestMatch where
  target : Option String
  rating : ℚ
deriving DecidableEq

/-- Embeds findBestMatch (src/categorize.js): the first candidate attaining
the strictly largest similarity, starting from a null match of rating 0. -/
def findBestMatch (target : String) (candidates : List String) : BestMatch :=
  candidates.foldl
    (fun best c =>
      let r := calculateSimilarity target c
      if r > best.rating then ⟨some c, r⟩ else best)
    ⟨none, 0⟩

/-- Raw category record returned by the category-list endpoint. -/
structure RawCategory where
  name : Option String
  id : Option Nat
deriving DecidableEq

/-- Builds the lower-cased name-to-id map from the fetched category list,
keeping entries with a truthy name and a non-null id. -/
def buildCategoriesMap (cats : List RawCategory) : CatMap :=
  cats.foldl
    (fun m c =>
      match c.name, c.id with
      | some n, some i => if n ≠ "" then assocSet m (toLowerStr n) i else m
      | _, _ => m)
    []

/-- Embeds getCategoriesMap (src/categorize.js): return the cache when
present, otherwise consume the fetch outcome; a fetch failure is rethrown as
the CategoryFetchError message. Returns the map and the updated cache. -/
def getCategoriesMap (cache : Option CatMap) (fetch : Except String (List RawCategory)) :
    Except String (CatMap × Option CatMap) :=
  match cache with
  | some m => Except.ok (m, some m)
  | none =>
    match fetch with
    | Except.ok cats =>
      let m := buildCategoriesMap cats
      Except.ok (m, some m)
    | Except.error msg => Except.error ("Failed to fetch categories: " ++ msg)

/-- Embeds getCategoryId (src/categorize.js): null for a falsy name without a
fetch, otherwise a lower-cased lookup in the categories map with the JS
|| null coercion. Propagates the fetch error. -/
def getCategoryId (cache : Option CatMap) (fetch : Except String (List RawCategory))
    (categoryName : String) : Except String (Option Nat × Option CatMap) :=
  if categoryName = "" then Except.ok (none, cache)
  else
    match getCategoriesMap cache fetch with
    | Except.error e => Except.error e
    | Except.ok (m, cache') => Except.ok (jsOrNullNat (assocGet m (toLowerStr categoryName)), cache')

/-- Which layer of assignCategoryId produced the category name. -/
inductive MatchSource where
  | configRule
  | memoryExact
  | memoryFuzzy
deriving DecidableEq

/-- First manual rule whose lower-cased key is contained in the lower-cased
sanitized payee (steps 1 of assignCategoryId, insertion order). -/
def findRuleMatch (lowerPayee : String) (rules : Memory) : Option (String × String) :=
  rules.find? (fun e => strIncludes lowerPayee (toLowerStr e.1))

/-- Steps 1-3 of assignCategoryId (src/categorize.js): manual rule substring
match, then exact memory substring match, then fuzzy memory match at the 0.7
threshold; each later step runs only while categoryName is still falsy. -/
def resolveCategoryName (sp : String) (rules mem : Memory) :
    Option String × Option MatchSource :=
  let lp := toLowerStr sp
  let r1 : Option String × Option MatchSource :=
    match findRuleMatch lp rules with
    | some e => (some e.2, some MatchSource.configRule)
    | none => (none, none)
  let r2 :=
    if optTruthy r1.1 then r1
    else
      match mem.find? (fun e => strIncludes lp (toLowerStr e.1)) with
      | some e => (some e.2, some MatchSource.memoryExact)
      | none => r1
  if optTruthy r2.1 then r2
  else if mem.isEmpty then r2
  else
    let bm := findBestMatch sp (mem.map (fun e => e.1))
    if bm.rating ≥ mkRat 7 10 then
      match bm.target with
      | some t => (assocGet mem t, some MatchSource.memoryFuzzy)
      | none => r2
    else r2

/-- Observable outcome of one assignCategoryId call: the returned id, the
internally chosen category name and its source, the memory mapping after the
call, whether saveMemory was invoked, and the categories cache after the
call. -/
structure AssignResult where
  categoryId : Option Nat
  categoryName : Option String
  matchSource : Option MatchSource
  memory : Memory
  saved : Bool
  catCache : Option CatMap
deriving DecidableEq

/-- Embeds assignCategoryId (src/categorize.js): falsy-payee early returns,
layered resolution, the learning step (skipped for config-rule matches and
when the memory already holds the identical entry; saveMemory receives the
full updated mapping), and the id lookup whose fetch error is caught and
turned into a null id (the categories cache stays empty on failure). -/
def assignCategoryId (payee : String) (rules mem : Memory) (cache : Option CatMap)
    (fetch : Except String (List RawCategory)) : AssignResult :=
  if payee = "" then ⟨none, none, none, mem, false, cache⟩
  else
    let sp := sanitizePayee payee
    if sp = "" then ⟨none, none, none, mem, false, cache⟩
    else
      let rs := resolveCategoryName sp rules mem
      let learned : Memory × Bool :=
        if optTruthy rs.1 ∧ rs.2 ≠ some MatchSource.configRule then
          match rs.1 with
          | some c =>
            let e := assocGet mem sp
            if ¬ optTruthy e ∨ e ≠ some c then (assocSet mem sp c, true) else (mem, false)
          | none => (mem, false)
        else (mem, false)
      let looked : Option Nat × Option CatMap :=
        if optTruthy rs.1 then
          match rs.1 with
          | some c =>
            match getCategoryId cache fetch c with
            | Except.ok (v, cache') => (v, cache')
            | Except.error _ => (none, cache)
          | none => (none, cache)
        else (none, cache)
      ⟨looked.1, rs.1, rs.2, learned.1, learned.2, looked.2⟩

/-- Historical Lunch Money transaction as consumed by the learning pass
(only payee and category_name are read by the memory builder). -/
structure HistoryTx where
  payee : Option String
  categoryName : Option String
deriving DecidableEq

/-- Guard of the learning pass: both payee and category_name truthy and
still truthy after trimming. -/
def eligibleTx (tx : HistoryTx) : Bool :=
  optTruthy tx.payee && optTruthy tx.categoryName &&
    !(strTrim (optOrEmpty tx.payee) == "") && !(strTrim (optOrEmpty tx.categoryName) == "")

/-- categoryStats[payee][category]++ for one category occurrence: increment an
existing entry in place, else append it with count 1. -/
def bumpCat : List (String × Nat) → String → List (String × Nat)
  | [], c => [(c, 1)]
  | e :: es, c => if e.1 = c then (e.1, e.2 + 1) :: es else e :: bumpCat es c

/-- One eligible transaction folded into categoryStats. -/
def bumpPayee : List (String × List (String × Nat)) → String → String →
    List (String × List (String × Nat))
  | [], p, c => [(p, bumpCat [] c)]
  | e :: es, p, c => if e.1 = p then (e.1, bumpCat e.2 c) :: es else e :: bumpPayee es p c

/-- First pass of buildMemoryFromLunchMoney: per-payee per-category counts in
first-seen insertion order. -/
def buildCategoryStats (history : List HistoryTx) : List (String × List (String × Nat)) :=
  history.foldl
    (fun acc tx =>
      if eligibleTx tx then
        bumpPayee acc (strTrim (optOrEmpty tx.payee)) (strTrim (optOrEmpty tx.categoryName))
      else acc)
    []

/-- Second pass of buildMemoryFromLunchMoney for one payee: running strict
maximum over the category counts, starting from (0, null), so the first-seen
category attaining the maximum wins ties. -/
def pickPreferred (cats : List (String × Nat)) : Nat × Option String :=
  cats.foldl (fun acc e => if e.2 > acc.1 then (e.2, some e.1) else acc) (0, none)

/-- Embeds buildMemoryFromLunchMoney (src/learnLunchMoney.js): learn the
preferred category of each payee whose maximum count reaches 2. -/
def buildMemoryFromLunchMoney (history : List HistoryTx) : Memory :=
  (buildCategoryStats history).foldl
    (fun mem e =>
      let pc := pickPreferred e.2
      match pc.2 with
      | some c => if c ≠ "" ∧ 2 ≤ pc.1 then assocSet mem e.1 c else mem
      | none => mem)
    []

/-- Trimmed category occurrences of one (trimmed) payee among the eligible
transactions of a history, in source order. -/
def occList (history : List HistoryTx) (p : String) : List String :=
  (history.filter (fun tx => eligibleTx tx && (strTrim (optOrEmpty tx.payee) == p))).map
    (fun tx => strTrim (optOrEmpty tx.categoryName))

/-- Index of the first occurrence of c in l (l.length when absent). -/
def firstPos (l : List String) (c : String) : Nat :=
  l.findIdx (fun x => x == c)

/-- Candidate movement entering the sync loop. -/
structure Movement where
  date : String
  amountCents : Int
  payee : String
  reference : Option String
deriving DecidableEq

/-- Existing Lunch Money transaction used to seed the duplicate sets. -/
structure ExistingTx where
  date : String
  amountCents : Int
  payee : Option String
  externalId : Option String
  id : Option String
deriving DecidableEq

/-- Simple duplicate key: date, a dash, and the amount fixed to 2 decimals. -/
def simpleKeyOfParts (date : String) (amountCents : Int) : String :=
  date ++ "-" ++ formatCents amountCents

/-- Pre-hash key of generateTransactionFingerprint (src/utils.js):
date-amount-payee-(reference || ''). -/
def fingerprintKey (date amountStr payee : String) (ref : Option String) : String :=
  date ++ "-" ++ amountStr ++ "-" ++ payee ++ "-" ++ optOrEmpty ref

/-- Embeds generateTransactionFingerprint with the SHA-256 digest abstracted
as hash. -/
def generateTransactionFingerprint (hash : String → String)
    (date amountStr payee : String) (ref : Option String) : String :=
  hash (fingerprintKey date amountStr payee ref)

/-- Fingerprint of a candidate movement (amount interpolated as a JS number). -/
def movementFingerprint (hash : String → String) (m : Movement) : String :=
  generateTransactionFingerprint hash m.date (jsNumToString m.amountCents) m.payee m.reference

/-- Fingerprint of an existing transaction: payee defaulted to '', reference
is external_id || id. -/
def existingFingerprint (hash : String → String) (t : ExistingTx) : String :=
  generateTransactionFingerprint hash t.date (jsNumToString t.amountCents)
    (optOrEmpty t.payee) (jsOrOpt t.externalId t.id)

/-- Seeds the two duplicate-detection sets from the fetched existing
transactions (src/sync.js lines 93-110). -/
def buildExistingSets (hash : String → String) (existing : List ExistingTx) :
    List String × List String :=
  existing.foldl
    (fun sets t =>
      (sets.1 ++ [simpleKeyOfParts t.date t.amountCents], sets.2 ++ [existingFingerprint hash t]))
    ([], [])

/-- Which duplicate signal is reported for a skipped movement. -/
inductive DupMethod where
  | simple
  | fingerprint
deriving DecidableEq

/-- Entry of the skippedDuplicates report list. -/
structure SkippedDuplicate where
  date : String
  amount : String
  payee : String
  method : DupMethod
deriving DecidableEq

/-- Transaction record pushed onto newTransactions for insertion. -/
structure InsertTx where
  date : String
  amount : String
  payee : String
  currency : String
  categoryId : Option Nat
  assetId : Option Nat
  externalId : Option String
deriving DecidableEq

/-- Builds the insertion record of src/sync.js lines 168-176: amount fixed to
two decimals, currency lower-cased, category_id only when truthy, asset_id
when configured, external_id only for a truthy reference. -/
def buildInsertTx (currency : String) (assetId : Option Nat) (m : Movement)
    (cid : Option Nat) : InsertTx :=
  { date := m.date
    amount := formatCents m.amountCents
    payee := m.payee
    currency := toLowerStr currency
    categoryId := jsOrNullNat cid
    assetId := assetId
    externalId := if optTruthy m.reference then m.reference else none }

/-- Entry of the processingErrors list. -/
structure ProcError where
  transaction : Movement
  error : String
  step : String
deriving DecidableEq

/-- State produced by the per-movement processing loop. -/
structure ProcOut (σ : Type) where
  newTransactions : List InsertTx
  skipped : List SkippedDuplicate
  processingErrors : List ProcError
  simpleKeys : List String
  fingerprints : List String
  catState : σ

/-- Embeds the per-movement loop of sync (src/sync.js lines 116-198): compute
the simple key and fingerprint, skip duplicates recording the matched method
(fingerprint takes precedence), otherwise categorize through the oracle — a
categorization error is recorded in processingErrors and the transaction is
still built without a category — push the insertion record and add both keys
to the tracking sets before the remaining movements are processed. -/
def processMovements {σ : Type} (hash : String → String)
    (categorize : σ → Movement → Except String (Option Nat) × σ)
    (currency : String) (assetId : Option Nat) :
    List Movement → List String → List String → σ → ProcOut σ
  | [], sk, fp, s => ⟨[], [], [], sk, fp, s⟩
  | m :: ms, sk, fp, s =>
    let key := simpleKeyOfParts m.date m.amountCents
    let f := movementFingerprint hash m
    if key ∈ sk ∨ f ∈ fp then
      let info : SkippedDuplicate :=
        ⟨m.date, formatCents m.amountCents, m.payee, if f ∈ fp then DupMethod.fingerprint else DupMethod.simple⟩
      let rest := processMovements hash categorize currency assetId ms sk fp s
      ⟨rest.newTransactions, info :: rest.skipped, rest.processingErrors,
        rest.simpleKeys, rest.fingerprints, rest.catState⟩
    else
      let step := categorize s m
      let handled : Option Nat × List ProcError :=
        match step.1 with
        | Except.ok v => (v, [])
        | Except.error e => (none, [⟨m, e, "categorization"⟩])
      let tx := buildInsertTx currency assetId m handled.1
      let rest := processMovements hash categorize currency assetId ms (sk ++ [key]) (fp ++ [f]) step.2
      ⟨tx :: rest.newTransactions, rest.skipped, handled.2 ++ rest.processingErrors,
        rest.simpleKeys, rest.fingerprints, rest.catState⟩

/-- Output of the deduplication procedure as worded by the specification. -/
structure DedupOut where
  newMovements : List Movement
  skipped : List SkippedDuplicate
  simpleKeys : List String
  fingerprints : List String

/-- Deduplication procedure written from the specification's wording
(spec section 4.5 step 2): in source order, a candidate is a duplicate exactly
when its simple key or fingerprint is in the respective existing-set
(fingerprint reported when it matched), and a new candidate's keys are
immediately added to the sets before later candidates are examined. -/
def dedupeSpec (hash : String → String) :
    List Movement → List String → List String → DedupOut
  | [], sk, fp => ⟨[], [], sk, fp⟩
  | m :: ms, sk, fp =>
    let key := simpleKeyOfParts m.date m.amountCents
    let f := movementFingerprint hash m
    if key ∈ sk ∨ f ∈ fp then
      let rest := dedupeSpec hash ms sk fp
      ⟨rest.newMovements,
        ⟨m.date, formatCents m.amountCents, m.payee, if f ∈ fp then DupMethod.fingerprint else DupMethod.simple⟩ :: rest.skipped,
        rest.simpleKeys, rest.fingerprints⟩
    else
      let rest := dedupeSpec hash ms (sk ++ [key]) (fp ++ [f])
      ⟨m :: rest.newMovements, rest.skipped, rest.simpleKeys, rest.fingerprints⟩

/-- Entry of the insertionErrors list. -/
structure InsertionError where
  batchIndex : Nat
  batchSize : Nat
  error : String
deriving DecidableEq

/-- Fuel-driven chunking used by batchArray. -/
def batchArrayGo {α : Type} : Nat → List α → Nat → List (List α)
  | 0, _, _ => []
  | fuel + 1, l, n => if l.isEmpty then [] else l.take n :: batchArrayGo fuel (l.drop n) n

/-- Embeds batchArray (src/utils.js): slice the list into chunks of size n. -/
def batchArray {α : Type} (l : List α) (n : Nat) : List (List α) :=
  batchArrayGo (l.length + 1) l n

/-- Embeds the batch-insertion loop of sync (src/sync.js lines 244-294): each
batch is attempted independently through the indexed insertion oracle; a
failure is recorded and later batches still run. Returns totalInserted and
insertionErrors. -/
def insertBatches (insertOutcome : Nat → Except String Unit) :
    List (List InsertTx) → Nat → Nat × List InsertionError
  | [], _ => (0, [])
  | b :: bs, i =>
    let rest := insertBatches insertOutcome bs (i + 1)
    match insertOutcome i with
    | Except.ok _ => (b.length + rest.1, rest.2)
    | Except.error e => (rest.1, ⟨i, b.length, e⟩ :: rest.2)

/-- Structured run summary returned by sync. The JS early-return objects omit
batches/insertionErrors/processingErrors; those absent fields are modelled as
none, [] and [] respectively. -/
structure SyncSummary where
  success : Bool
  processed : Nat
  inserted : Nat
  skipped : Nat
  errors : Nat
  dryRunFlag : Bool
  batches : Option Nat
  insertionErrors : List InsertionError
  processingErrors : List ProcError
deriving DecidableEq

/-- Embeds sync (src/sync.js) from the point where source movements and
existing transactions are in hand: none models the undefined early return for
an empty movement list; otherwise dedupe and categorize, then either the
no-new-transactions summary, the dry-run summary, or the live batched
insertion with success = (insertionErrors.length === 0). -/
def syncRun {σ : Type} (hash : String → String)
    (categorize : σ → Movement → Except String (Option Nat) × σ)
    (currency : String) (assetId : Option Nat) (dryRun : Bool)
    (insertOutcome : Nat → Except String Unit)
    (movements : List Movement) (existing : List ExistingTx) (s0 : σ) :
    Option SyncSummary :=
  if movements.isEmpty then none
  else
    let sets := buildExistingSets hash existing
    let st := processMovements hash categorize currency assetId movements sets.1 sets.2 s0
    if st.newTransactions.isEmpty then
      some ⟨true, movements.length, 0, st.skipped.length, st.processingErrors.length,
        false, none, [], []⟩
    else if dryRun then
      some ⟨true, movements.length, st.newTransactions.length, st.skipped.length,
        st.processingErrors.length, true, none, [], []⟩
    else
      let batches := batchArray st.newTransactions 50
      let ins := insertBatches insertOutcome batches 0
      some ⟨ins.2.isEmpty, movements.length, ins.1, st.skipped.length,
        st.processingErrors.length + ins.2.length, false, some batches.length, ins.2,
        st.processingErrors⟩

/-- Value of a little-endian digit list. -/
def fromDigitsRev : List Nat → Nat
  | [] => 0
  | d :: ds => d + 10 * fromDigitsRev ds

/-- Bigram set of a case-folded string, as a finite set (specification-side
view of the JS Set of bigrams). -/
def bigramFinset (s : String) : Finset (Char × Char) :=
  (strBigrams (toLowerStr s).data).toFinset

/-- Dice coefficient over the case-folded bigram sets, written from the
specification's formula 2 * |intersection| / (|bigramsA| + |bigramsB|). -/
def diceCoefficient (a b : String) : ℚ :=
  (2 * ((bigramFinset a ∩ bigramFinset b).card : ℚ)) /
    (((bigramFinset a).card : ℚ) + ((bigramFinset b).card : ℚ))

/-- C1: for every list of existing-set seeds and every candidate list, the
processing loop of sync classifies candidates in source order exactly as the
specification's deduplication procedure: a candidate is skipped precisely when
its simple key or fingerprint is in the respective evolving set, the reported
method is fingerprint whenever the fingerprint matched (even if both signals
matched), a new candidate's keys are immediately added to the sets (so later
in-batch duplicates are caught), and new transactions come out in source
order — all independent of the categorization oracle and its state. -/
theorem c1_dedupe_refines_spec {σ : Type} (hash : String → String)
    (categorize : σ → Movement → Except String (Option Nat) × σ)
    (currency : String) (assetId : Option Nat) :
    ∀ (ms : List Movement) (sk fp : List String) (s : σ),
      (processMovements hash categorize currency assetId ms sk fp s).skipped =
          (dedupeSpec hash ms sk fp).skipped ∧
      (processMovements hash categorize currency assetId ms sk fp s).newTransactions.map
          (fun t => (t.date, t.amount, t.payee)) =
        (dedupeSpec hash ms sk fp).newMovements.map
          (fun m => (m.date, formatCents m.amountCents, m.payee)) ∧
      (processMovements hash categorize currency assetId ms sk fp s).simpleKeys =
          (dedupeSpec hash ms sk fp).simpleKeys ∧
      (processMovements hash categorize currency assetId ms sk fp s).fingerprints =
          (dedupeSpec hash ms sk fp).fingerprints := by
  intro ms
  induction ms with
  | nil => intro sk fp s; simp [processMovements, dedupeSpec]
  | cons m ms ih =>
    intro sk fp s
    by_cases h : simpleKeyOfParts m.date m.amountCents ∈ sk ∨ movementFingerprint hash m ∈ fp
    · simpa [processMovements, dedupeSpec, h] using ih sk fp s
    · simpa [processMovements, dedupeSpec, h, buildInsertTx] using
        ih (sk ++ [simpleKeyOfParts m.date m.amountCents])
          (fp ++ [movementFingerprint hash m]) (categorize s m).2

/-- C2 counterexample: a candidate whose categorization fails is recorded in
processingErrors but is NOT excluded from the transactions submitted for
insertion — it is pushed onto newTransactions without a category. -/
theorem c2_counterexample :
    (processMovements (fun s => s)
        (fun (u : Unit) _ => (Except.error "categorization failed", u))
        "CLP" none [⟨"2024-01-01", 1000, "A", none⟩] [] [] ()).processingErrors =
      [⟨⟨"2024-01-01", 1000, "A", none⟩, "categorization failed", "categorization"⟩] ∧
    (processMovements (fun s => s)
        (fun (u : Unit) _ => (Except.error "categorization failed", u))
        "CLP" none [⟨"2024-01-01", 1000, "A", none⟩] [] [] ()).newTransactions =
      [⟨"2024-01-01", "10.00", "A", "clp", none, none, none⟩] := by
  constructor
  · decide
  · decide

/-- C2 as amended: a candidate whose categorization fails after retries is
recorded in the processing-errors list but is STILL included, without a
category, in the list of transactions submitted for insertion; the failure
does not abort the run — every candidate is still classified as either new or
skipped. -/
theorem c2_amended {σ : Type} (hash : String → String)
    (categorize : σ → Movement → Except String (Option Nat) × σ)
    (currency : String) (assetId : Option Nat) :
    ∀ (ms : List Movement) (sk fp : List String) (s : σ),
      (processMovements hash categorize currency assetId ms sk fp s).newTransactions.length +
          (processMovements hash categorize currency assetId ms sk fp s).skipped.length =
        ms.length ∧
      ∀ e ∈ (processMovements hash categorize currency assetId ms sk fp s).processingErrors,
        e.step = "categorization" ∧
        ∃ t ∈ (processMovements hash categorize currency assetId ms sk fp s).newTransactions,
          t.date = e.transaction.date ∧ t.amount = formatCents e.transaction.amountCents ∧
          t.payee = e.transaction.payee ∧ t.categoryId = none := by
  intro ms
  induction ms with
  | nil => intro sk fp s; simp [processMovements]
  | cons m ms ih =>
    intro sk fp s
    by_cases h : simpleKeyOfParts m.date m.amountCents ∈ sk ∨ movementFingerprint hash m ∈ fp
    · have h1 := (ih sk fp s).1
      have h2 := (ih sk fp s).2
      simp only [processMovements, if_pos h]
      refine ⟨?_, ?_⟩
      · simp only [List.length_cons]
        omega
      · intro e he
        rcases h2 e he with ⟨hstep, t, ht, hprops⟩
        exact ⟨hstep, t, ht, hprops⟩
    · have h1 := (ih (sk ++ [simpleKeyOfParts m.date m.amountCents])
        (fp ++ [movementFingerprint hash m]) (categorize s m).2).1
      have h2 := (ih (sk ++ [simpleKeyOfParts m.date m.amountCents])
        (fp ++ [movementFingerprint hash m]) (categorize s m).2).2
      simp only [processMovements, if_neg h]
      refine ⟨?_, ?_⟩
      · simp only [List.length_cons]
        omega
      · intro e he
        rcases List.mem_append.mp he with hhd | htl
        · rcases hh : (categorize s m).1 with msg | v
          · simp only [hh] at hhd ⊢
            simp at hhd
            subst hhd
            exact ⟨rfl, buildInsertTx currency assetId m none, by simp,
              rfl, rfl, rfl, by simp [buildInsertTx, jsOrNullNat]⟩
          · simp only [hh] at hhd
            simp at hhd
        · rcases h2 e htl with ⟨hstep, t, ht, hprops⟩
          exact ⟨hstep, t, List.mem_cons_of_mem _ ht, hprops⟩

/-- C6: whenever sync returns a summary, success is true exactly when the
insertion-errors list is empty — insertion failures alone decide success, and
processing errors never flip it. -/
theorem c6_success_iff_no_insertion_error {σ : Type} (hash : String → String)
    (categorize : σ → Movement → Except String (Option Nat) × σ)
    (currency : String) (assetId : Option Nat) (dryRun : Bool)
    (insertOutcome : Nat → Except String Unit) :
    ∀ (movements : List Movement) (existing : List ExistingTx) (s0 : σ)
      (summary : SyncSummary),
      syncRun hash categorize currency assetId dryRun insertOutcome movements existing s0 =
          some summary →
      (summary.success = true ↔ summary.insertionErrors = []) := by
  intro movements existing s0 summary h
  by_cases h0 : movements.isEmpty
  · simp [syncRun, h0] at h
  · by_cases h1 : (processMovements hash categorize currency assetId movements
        (buildExistingSets hash existing).1 (buildExistingSets hash existing).2 s0).newTransactions.isEmpty
    · simp [syncRun, h0, h1] at h
      subst h
      simp
    · by_cases h2 : dryRun
      · simp [syncRun, h0, h1, h2] at h
        subst h
        simp
      · simp [syncRun, h0, h1, h2] at h
        subst h
        simp [List.isEmpty_iff]

/-- Witness for c2_amended at a concrete failing categorization. -/
theorem c2_amended_witness :
    (processMovements (fun s => s)
          (fun (u : Unit) _ => (Except.error "categorization failed", u))
          "CLP" none [⟨"2024-01-01", 1000, "A", none⟩] [] [] ()).newTransactions.length +
        (processMovements (fun s => s)
          (fun (u : Unit) _ => (Except.error "categorization failed", u))
          "CLP" none [⟨"2024-01-01", 1000, "A", none⟩] [] [] ()).skipped.length = 1 ∧
      ((⟨⟨"2024-01-01", 1000, "A", none⟩, "categorization failed", "categorization"⟩ : ProcError).step
          = "categorization" ∧
        ∃ t ∈ (processMovements (fun s => s)
            (fun (u : Unit) _ => (Except.error "categorization failed", u))
            "CLP" none [⟨"2024-01-01", 1000, "A", none⟩] [] [] ()).newTransactions,
          t.date = (⟨⟨"2024-01-01", 1000, "A", none⟩, "categorization failed", "categorization"⟩ : ProcError).transaction.date ∧
          t.amount = formatCents (⟨⟨"2024-01-01", 1000, "A", none⟩, "categorization failed", "categorization"⟩ : ProcError).transaction.amountCents ∧
          t.payee = (⟨⟨"2024-01-01", 1000, "A", none⟩, "categorization failed", "categorization"⟩ : ProcError).transaction.payee ∧
          t.categoryId = none) :=
  ⟨(c2_amended (fun s => s) (fun (u : Unit) _ => (Except.error "categorization failed", u))
      "CLP" none [⟨"2024-01-01", 1000, "A", none⟩] [] [] ()).1,
    (c2_amended (fun s => s) (fun (u : Unit) _ => (Except.error "categorization failed", u))
      "CLP" none [⟨"2024-01-01", 1000, "A", none⟩] [] [] ()).2
      ⟨⟨"2024-01-01", 1000, "A", none⟩, "categorization failed", "categorization"⟩ (by decide)⟩

/-- Witness for c6_success_iff_no_insertion_error on a concrete successful run. -/
theorem c6_success_witness :
    syncRun (fun s => s) (fun (u : Unit) _ => (Except.ok none, u)) "CLP" none false
        (fun _ => Except.ok ()) [⟨"2024-01-01", 1000, "A", none⟩] [] () =
      some ⟨true, 1, 1, 0, 0, false, some 1, [], []⟩ ∧
    ((⟨true, 1, 1, 0, 0, false, some 1, [], []⟩ : SyncSummary).success = true ↔
      (⟨true, 1, 1, 0, 0, false, some 1, [], []⟩ : SyncSummary).insertionErrors = []) :=
  ⟨by decide,
    c6_success_iff_no_insertion_error (fun s => s) (fun (u : Unit) _ => (Except.ok none, u))
      "CLP" none false (fun _ => Except.ok ()) [⟨"2024-01-01", 1000, "A", none⟩] [] ()
      ⟨true, 1, 1, 0, 0, false, some 1, [], []⟩ (by decide)⟩

/-- Fuel irrelevance for the digit computation: any fuel above n gives the
same digits. -/
theorem toDigitsRev_fuel : ∀ (n f₁ f₂ : Nat), n < f₁ → n < f₂ →
    toDigitsRev f₁ n = toDigitsRev f₂ n := by
  intro n
  induction n using Nat.strong_induction_on with
  | _ n ih =>
    intro f₁ f₂ h₁ h₂
    cases f₁ with
    | zero => omega
    | succ g₁ =>
      cases f₂ with
      | zero => omega
      | succ g₂ =>
        simp only [toDigitsRev]
        by_cases hn : n < 10
        · simp [hn]
        · simp only [hn, if_false]
          have hd : n / 10 < n := Nat.div_lt_self (by omega) (by omega)
          rw [ih (n / 10) hd g₁ g₂ (by omega) (by omega)]

/-- Digits of a small number. -/
theorem natDigits_small {n : Nat} (h : n < 10) : natDigits n = [n] := by
  simp [natDigits, toDigitsRev, h]

/-- Digit-list unfolding for numbers of at least two digits. -/
theorem natDigits_step {n : Nat} (h : 10 ≤ n) :
    natDigits n = n % 10 :: natDigits (n / 10) := by
  have hd : n / 10 < n := Nat.div_lt_self (by omega) (by omega)
  conv_lhs => rw [natDigits, toDigitsRev]
  simp only [Nat.not_lt.mpr h, if_false]
  rw [toDigitsRev_fuel (n / 10) n (n / 10 + 1) hd (by omega)]
  rfl

/-- Round trip: recomposing the digits gives the number back. -/
theorem fromDigitsRev_natDigits : ∀ n, fromDigitsRev (natDigits n) = n := by
  intro n
  induction n using Nat.strong_induction_on with
  | _ n ih =>
    by_cases h : n < 10
    · simp [natDigits_small h, fromDigitsRev]
    · have hd : n / 10 < n := Nat.div_lt_self (by omega) (by omega)
      rw [natDigits_step (by omega), fromDigitsRev, ih (n / 10) hd]
      omega

/-- The digit-list map is injective. -/
theorem natDigits_injective {m n : Nat} (h : natDigits m = natDigits n) : m = n := by
  rw [← fromDigitsRev_natDigits m, ← fromDigitsRev_natDigits n, h]

/-- Every produced digit is below 10. -/
theorem natDigits_lt_ten : ∀ n, ∀ d ∈ natDigits n, d < 10 := by
  intro n
  induction n using Nat.strong_induction_on with
  | _ n ih =>
    intro d hd
    by_cases h : n < 10
    · rw [natDigits_small h] at hd
      simp at hd
      omega
    · rw [natDigits_step (by omega)] at hd
      rcases List.mem_cons.mp hd with h1 | h1
      · subst h1; omega
      · exact ih (n / 10) (Nat.div_lt_self (by omega) (by omega)) d h1

/-- The digit list is never empty. -/
theorem natDigits_ne_nil (n : Nat) : natDigits n ≠ [] := by
  by_cases h : n < 10
  · simp [natDigits_small h]
  · simp [natDigits_step (Nat.not_lt.mp h)]

/-- digitChar is injective on digits. -/
theorem digitChar_inj_lt : ∀ a, a < 10 → ∀ b, b < 10 →
    Nat.digitChar a = Nat.digitChar b → a = b := by decide

/-- digitChar produces decimal digit characters. -/
theorem digitChar_isDigit : ∀ a, a < 10 → (Nat.digitChar a).isDigit = true := by decide

/-- Mapping digitChar over digit lists is injective. -/
theorem map_digitChar_inj : ∀ (l₁ l₂ : List Nat), (∀ d ∈ l₁, d < 10) → (∀ d ∈ l₂, d < 10) →
    l₁.map Nat.digitChar = l₂.map Nat.digitChar → l₁ = l₂ := by
  intro l₁
  induction l₁ with
  | nil => intro l₂ _ _ h; cases l₂ <;> simp_all
  | cons d t ih =>
    intro l₂ h₁ h₂ h
    cases l₂ with
    | nil => simp at h
    | cons d' t' =>
      simp only [List.map_cons, List.cons.injEq] at h
      have hd : d = d' :=
        digitChar_inj_lt d (h₁ d (by simp)) d' (h₂ d' (by simp)) h.1
      have ht : t = t' := ih t' (fun x hx => h₁ x (by simp [hx])) (fun x hx => h₂ x (by simp [hx])) h.2
      rw [hd, ht]

/-- Two strings with the same character data are equal. -/
theorem str_data_inj : ∀ {s₁ s₂ : String}, s₁.data = s₂.data → s₁ = s₂ := by
  intro s₁ s₂ h
  cases s₁
  cases s₂
  exact congrArg String.mk h

/-- Character data of a concatenation. -/
theorem strDataAppend (a b : String) : (a ++ b).data = a.data ++ b.data := rfl

/-- Decimal rendering of naturals is injective. -/
theorem natToString10_inj {m n : Nat} (h : natToString10 m = natToString10 n) : m = n := by
  have hdata : ((natDigits m).reverse.map Nat.digitChar) = ((natDigits n).reverse.map Nat.digitChar) := by
    have := congrArg String.data h
    simpa [natToString10] using this
  have hrev : (natDigits m).reverse = (natDigits n).reverse :=
    map_digitChar_inj _ _ (fun d hd => natDigits_lt_ten m d (List.mem_reverse.mp hd))
      (fun d hd => natDigits_lt_ten n d (List.mem_reverse.mp hd)) hdata
  exact natDigits_injective (List.reverse_injective hrev)

/-- All characters of the decimal rendering are digits. -/
theorem natToString10_all_digits (n : Nat) : ∀ c ∈ (natToString10 n).data, c.isDigit = true := by
  intro c hc
  simp only [natToString10] at hc
  rcases List.mem_map.mp hc with ⟨d, hd, hdc⟩
  rw [← hdc]
  exact digitChar_isDigit d (natDigits_lt_ten n d (List.mem_reverse.mp hd))

/-- The decimal rendering is never the empty string. -/
theorem natToString10_ne_nil (n : Nat) : (natToString10 n).data ≠ [] := by
  simp only [natToString10]
  simpa using natDigits_ne_nil n

/-- Splitting a concatenation at the boundary between a digit run and a
non-digit (or empty) tail is unambiguous. -/
theorem digit_run_split : ∀ (a₁ a₂ b₁ b₂ : List Char),
    (∀ c ∈ a₁, c.isDigit = true) → (∀ c ∈ a₂, c.isDigit = true) →
    (∀ c, b₁.head? = some c → c.isDigit = false) →
    (∀ c, b₂.head? = some c → c.isDigit = false) →
    a₁ ++ b₁ = a₂ ++ b₂ → a₁ = a₂ ∧ b₁ = b₂ := by
  intro a₁
  induction a₁ with
  | nil =>
    intro a₂ b₁ b₂ _ h₂ hb₁ _ heq
    cases a₂ with
    | nil => exact ⟨rfl, heq⟩
    | cons c t =>
      exfalso
      have hhd : b₁.head? = some c := by
        rw [List.nil_append] at heq
        rw [heq]
        rfl
      have := hb₁ c hhd
      have := h₂ c (by simp)
      simp_all
  | cons c t ih =>
    intro a₂ b₁ b₂ h₁ h₂ hb₁ hb₂ heq
    cases a₂ with
    | nil =>
      exfalso
      have hhd : b₂.head? = some c := by
        rw [List.nil_append] at heq
        rw [← heq]
        rfl
      have := hb₂ c hhd
      have := h₁ c (by simp)
      simp_all
    | cons c' t' =>
      simp only [List.cons_append, List.cons.injEq] at heq
      rcases heq with ⟨hc, ht⟩
      have := ih t' b₁ b₂ (fun x hx => h₁ x (by simp [hx])) (fun x hx => h₂ x (by simp [hx]))
        hb₁ hb₂ ht
      exact ⟨by rw [hc, this.1], this.2⟩

set_option maxRecDepth 4000 in
/-- The fractional rendering is injective on cent remainders. -/
theorem jsFracStr_inj : ∀ r₁, r₁ < 100 → ∀ r₂, r₂ < 100 →
    jsFracStr r₁ = jsFracStr r₂ → r₁ = r₂ := by decide

/-- The fractional rendering never starts with a digit. -/
theorem jsFracStr_head : ∀ (r : Nat) (c : Char),
    (jsFracStr r).data.head? = some c → c.isDigit = false := by
  intro r c hc
  by_cases h : r = 0
  · simp [jsFracStr, h] at hc
  · by_cases h10 : r % 10 = 0
    · simp only [jsFracStr, h, h10, if_false, if_true, if_neg, if_pos] at hc
      rw [strDataAppend] at hc
      cases hc
      decide
    · simp only [jsFracStr, h, h10, if_false, if_neg] at hc
      rw [strDataAppend, strDataAppend] at hc
      cases hc
      decide

/-- The JS number rendering of cent values is injective. -/
theorem jsNumToString_inj : Function.Injective jsNumToString := by
  intro c₁ c₂ h
  have hdata := congrArg String.data h
  simp only [jsNumToString, strDataAppend] at hdata
  have main : ∀ (m₁ m₂ : Nat),
      (natToString10 (m₁ / 100)).data ++ (jsFracStr (m₁ % 100)).data =
        (natToString10 (m₂ / 100)).data ++ (jsFracStr (m₂ % 100)).data → m₁ = m₂ := by
    intro m₁ m₂ hm
    have hsplit := digit_run_split _ _ _ _ (natToString10_all_digits (m₁ / 100))
      (natToString10_all_digits (m₂ / 100)) (jsFracStr_head (m₁ % 100))
      (jsFracStr_head (m₂ % 100)) hm
    have hdiv : m₁ / 100 = m₂ / 100 := natToString10_inj (str_data_inj hsplit.1)
    have hmod : m₁ % 100 = m₂ % 100 :=
      jsFracStr_inj (m₁ % 100) (Nat.mod_lt _ (by omega)) (m₂ % 100) (Nat.mod_lt _ (by omega))
        (str_data_inj hsplit.2)
    omega
  by_cases s₁ : c₁ < 0 <;> by_cases s₂ : c₂ < 0
  · simp only [s₁, s₂, if_true, if_pos] at hdata
    have : (natToString10 (c₁.natAbs / 100)).data ++ (jsFracStr (c₁.natAbs % 100)).data =
        (natToString10 (c₂.natAbs / 100)).data ++ (jsFracStr (c₂.natAbs % 100)).data := by
      have := hdata
      simpa using this
    have habs := main c₁.natAbs c₂.natAbs this
    omega
  · exfalso
    simp only [s₁, s₂, if_true, if_false, if_pos, if_neg] at hdata
    rcases hn : (natToString10 (c₂.natAbs / 100)).data with _ | ⟨d, rest⟩
    · exact natToString10_ne_nil _ hn
    · rw [hn] at hdata
      have hd : d.isDigit = true := by
        have : d ∈ (natToString10 (c₂.natAbs / 100)).data := by rw [hn]; simp
        exact natToString10_all_digits _ d this
      have : ('-' : Char) = d := by
        have := congrArg List.head? hdata
        simpa using this
      rw [← this] at hd
      simp at hd
  · exfalso
    simp only [s₁, s₂, if_true, if_false, if_pos, if_neg] at hdata
    rcases hn : (natToString10 (c₁.natAbs / 100)).data with _ | ⟨d, rest⟩
    · exact natToString10_ne_nil _ hn
    · rw [hn] at hdata
      have hd : d.isDigit = true := by
        have : d ∈ (natToString10 (c₁.natAbs / 100)).data := by rw [hn]; simp
        exact natToString10_all_digits _ d this
      have : d = ('-' : Char) := by
        have := congrArg List.head? hdata
        simpa using this
      rw [this] at hd
      simp at hd
  · simp only [s₁, s₂, if_false, if_neg] at hdata
    have : (natToString10 (c₁.natAbs / 100)).data ++ (jsFracStr (c₁.natAbs % 100)).data =
        (natToString10 (c₂.natAbs / 100)).data ++ (jsFracStr (c₂.natAbs % 100)).data := by
      simpa using hdata
    have habs := main c₁.natAbs c₂.natAbs this
    omega

/-- Character data of a fingerprint key, fully right associated. -/
theorem fingerprintKey_data (d a p : String) (r : Option String) :
    (fingerprintKey d a p r).data =
      d.data ++ ('-' :: (a.data ++ ('-' :: (p.data ++ ('-' :: (optOrEmpty r).data))))) := by
  simp [fingerprintKey, strDataAppend, List.append_assoc]

/-- With amount, payee and rendered reference fixed, the key determines the
date. -/
theorem fingerprintKey_inj_date {d₁ d₂ a p : String} {r₁ r₂ : Option String}
    (hr : optOrEmpty r₁ = optOrEmpty r₂)
    (h : fingerprintKey d₁ a p r₁ = fingerprintKey d₂ a p r₂) : d₁ = d₂ := by
  have hd := congrArg String.data h
  rw [fingerprintKey_data, fingerprintKey_data, hr] at hd
  exact str_data_inj (List.append_cancel_right hd)

/-- With date, payee and rendered reference fixed, the key determines the
amount string. -/
theorem fingerprintKey_inj_amount {d a₁ a₂ p : String} {r₁ r₂ : Option String}
    (hr : optOrEmpty r₁ = optOrEmpty r₂)
    (h : fingerprintKey d a₁ p r₁ = fingerprintKey d a₂ p r₂) : a₁ = a₂ := by
  have hd := congrArg String.data h
  rw [fingerprintKey_data, fingerprintKey_data, hr] at hd
  have h1 := List.append_cancel_left hd
  have h2 := (List.cons.injEq _ _ _ _).mp h1
  exact str_data_inj (List.append_cancel_right h2.2)

/-- With date, amount and rendered reference fixed, the key determines the
payee. -/
theorem fingerprintKey_inj_payee {d a p₁ p₂ : String} {r₁ r₂ : Option String}
    (hr : optOrEmpty r₁ = optOrEmpty r₂)
    (h : fingerprintKey d a p₁ r₁ = fingerprintKey d a p₂ r₂) : p₁ = p₂ := by
  have hd := congrArg String.data h
  rw [fingerprintKey_data, fingerprintKey_data, hr] at hd
  have h1 := List.append_cancel_left hd
  have h2 := (List.cons.injEq _ _ _ _).mp h1
  have h3 := List.append_cancel_left h2.2
  have h4 := (List.cons.injEq _ _ _ _).mp h3
  exact str_data_inj (List.append_cancel_right h4.2)

/-- With date, amount and payee fixed, the key determines the rendered
reference. -/
theorem fingerprintKey_inj_ref {d a p : String} {r₁ r₂ : Option String}
    (h : fingerprintKey d a p r₁ = fingerprintKey d a p r₂) :
    optOrEmpty r₁ = optOrEmpty r₂ := by
  have hd := congrArg String.data h
  rw [fingerprintKey_data, fingerprintKey_data] at hd
  have h1 := List.append_cancel_left hd
  have h2 := (List.cons.injEq _ _ _ _).mp h1
  have h3 := List.append_cancel_left h2.2
  have h4 := (List.cons.injEq _ _ _ _).mp h3
  have h5 := List.append_cancel_left h4.2
  have h6 := (List.cons.injEq _ _ _ _).mp h5
  exact str_data_inj h6.2

/-- C9: with the cryptographic hash abstracted as an injective function, the
fingerprint is deterministic — equal (date, amount, payee, reference-or-empty)
tuples give equal digests — and changing exactly one of those four fields
while the others stay fixed changes the digest, because the pre-hash key
construction is injective in each field. -/
theorem c9_fingerprint_deterministic_injective :
    ∀ (hash : String → String), Function.Injective hash →
      (∀ m₁ m₂ : Movement,
        m₁.date = m₂.date → m₁.amountCents = m₂.amountCents → m₁.payee = m₂.payee →
        optOrEmpty m₁.reference = optOrEmpty m₂.reference →
        movementFingerprint hash m₁ = movementFingerprint hash m₂) ∧
      (∀ m₁ m₂ : Movement,
        m₁.amountCents = m₂.amountCents → m₁.payee = m₂.payee →
        optOrEmpty m₁.reference = optOrEmpty m₂.reference → m₁.date ≠ m₂.date →
        movementFingerprint hash m₁ ≠ movementFingerprint hash m₂) ∧
      (∀ m₁ m₂ : Movement,
        m₁.date = m₂.date → m₁.payee = m₂.payee →
        optOrEmpty m₁.reference = optOrEmpty m₂.reference → m₁.amountCents ≠ m₂.amountCents →
        movementFingerprint hash m₁ ≠ movementFingerprint hash m₂) ∧
      (∀ m₁ m₂ : Movement,
        m₁.date = m₂.date → m₁.amountCents = m₂.amountCents →
        optOrEmpty m₁.reference = optOrEmpty m₂.reference → m₁.payee ≠ m₂.payee →
        movementFingerprint hash m₁ ≠ movementFingerprint hash m₂) ∧
      (∀ m₁ m₂ : Movement,
        m₁.date = m₂.date → m₁.amountCents = m₂.amountCents → m₁.payee = m₂.payee →
        optOrEmpty m₁.reference ≠ optOrEmpty m₂.reference →
        movementFingerprint hash m₁ ≠ movementFingerprint hash m₂) := by
  intro hash hinj
  refine ⟨?_, ?_, ?_, ?_, ?_⟩
  · intro m₁ m₂ h1 h2 h3 h4
    simp only [movementFingerprint, generateTransactionFingerprint, fingerprintKey, h1, h2, h3, h4]
  · intro m₁ m₂ h2 h3 h4 hne heq
    apply hne
    have hk := hinj heq
    simp only [movementFingerprint, generateTransactionFingerprint, h2, h3] at hk
    exact fingerprintKey_inj_date h4 hk
  · intro m₁ m₂ h1 h3 h4 hne heq
    apply hne
    have hk := hinj heq
    simp only [movementFingerprint, generateTransactionFingerprint, h1, h3] at hk
    exact jsNumToString_inj (fingerprintKey_inj_amount h4 hk)
  · intro m₁ m₂ h1 h2 h4 hne heq
    apply hne
    have hk := hinj heq
    simp only [movementFingerprint, generateTransactionFingerprint, h1, h2] at hk
    exact fingerprintKey_inj_payee h4 hk
  · intro m₁ m₂ h1 h2 h3 hne heq
    apply hne
    have hk := hinj heq
    simp only [movementFingerprint, generateTransactionFingerprint, h1, h2, h3] at hk
    exact fingerprintKey_inj_ref hk

/-- Witness for c9 with the identity hash: determinism across the none/""ed
reference distinction, and a changed amount changes the digest. -/
theorem c9_fingerprint_witness :
    movementFingerprint (fun s => s) ⟨"2024-01-01", 1000, "A", none⟩ =
        movementFingerprint (fun s => s) ⟨"2024-01-01", 1000, "A", some ""⟩ ∧
    movementFingerprint (fun s => s) ⟨"2024-01-01", 1000, "A", none⟩ ≠
        movementFingerprint (fun s => s) ⟨"2024-01-01", 1001, "A", none⟩ :=
  ⟨(c9_fingerprint_deterministic_injective (fun s => s) (fun _ _ h => h)).1
      ⟨"2024-01-01", 1000, "A", none⟩ ⟨"2024-01-01", 1000, "A", some ""⟩
      rfl rfl rfl (by decide),
    (c9_fingerprint_deterministic_injective (fun s => s) (fun _ _ h => h)).2.2.1
      ⟨"2024-01-01", 1000, "A", none⟩ ⟨"2024-01-01", 1001, "A", none⟩
      rfl rfl (by decide) (by decide)⟩

/-- Sanitizing the empty payee yields the empty string. -/
theorem sanitizePayee_empty : sanitizePayee "" = "" := by decide

/-- C3 counterexample: with rules [("a", "")] and memory [("a", "Food")], the
payee "ab" satisfies the claim's hypothesis (the lower-cased sanitized payee
contains the rule key "a"), yet assignCategoryId does not resolve to the first
matching rule's category: the falsy rule category lets the memory layer win,
and the memory IS mutated and saved. -/
theorem c3_rule_priority_counterexample :
    findRuleMatch (toLowerStr (sanitizePayee "ab")) [("a", "")] = some ("a", "") ∧
    (assignCategoryId "ab" [("a", "")] [("a", "Food")] none (Except.ok [])).categoryName =
        some "Food" ∧
    (assignCategoryId "ab" [("a", "")] [("a", "Food")] none (Except.ok [])).matchSource =
        some MatchSource.memoryExact ∧
    (assignCategoryId "ab" [("a", "")] [("a", "Food")] none (Except.ok [])).saved = true ∧
    (assignCategoryId "ab" [("a", "")] [("a", "Food")] none (Except.ok [])).memory =
        [("a", "Food"), ("ab", "Food")] := by decide

/-- C3 as amended: provided the sanitized payee is nonempty and the first
matching rule's category is nonempty, assignCategoryId resolves to that
rule's category (insertion order, first match wins) with priority over every
memory layer, and the memory is neither mutated nor saved. -/
theorem c3_rule_priority_amended :
    ∀ (payee : String) (rules mem : Memory) (cache : Option CatMap)
      (fetch : Except String (List RawCategory)) (k c : String),
      sanitizePayee payee ≠ "" →
      findRuleMatch (toLowerStr (sanitizePayee payee)) rules = some (k, c) →
      c ≠ "" →
      (assignCategoryId payee rules mem cache fetch).categoryName = some c ∧
      (assignCategoryId payee rules mem cache fetch).matchSource =
          some MatchSource.configRule ∧
      (assignCategoryId payee rules mem cache fetch).memory = mem ∧
      (assignCategoryId payee rules mem cache fetch).saved = false := by
  intro payee rules mem cache fetch k c hsp hrule hc
  have hp : payee ≠ "" := by
    intro h
    rw [h, sanitizePayee_empty] at hsp
    exact hsp rfl
  have hrs : resolveCategoryName (sanitizePayee payee) rules mem =
      (some c, some MatchSource.configRule) := by
    simp only [resolveCategoryName, hrule]
    simp [optTruthy, hc]
  unfold assignCategoryId
  rw [if_neg hp, if_neg hsp, hrs]
  simp [optTruthy, hc]

/-- Witness for c3_rule_priority_amended on the specification's example:
manual rule acme wins over the memory entry and memory is untouched. -/
theorem c3_rule_priority_witness :
    (assignCategoryId "ACME CORP 55" [("acme", "Shopping")] [("acme corp", "Food")]
        none (Except.ok [⟨some "Shopping", some 7⟩])).categoryName = some "Shopping" ∧
    (assignCategoryId "ACME CORP 55" [("acme", "Shopping")] [("acme corp", "Food")]
        none (Except.ok [⟨some "Shopping", some 7⟩])).matchSource =
      some MatchSource.configRule ∧
    (assignCategoryId "ACME CORP 55" [("acme", "Shopping")] [("acme corp", "Food")]
        none (Except.ok [⟨some "Shopping", some 7⟩])).memory = [("acme corp", "Food")] ∧
    (assignCategoryId "ACME CORP 55" [("acme", "Shopping")] [("acme corp", "Food")]
        none (Except.ok [⟨some "Shopping", some 7⟩])).saved = false :=
  c3_rule_priority_amended "ACME CORP 55" [("acme", "Shopping")] [("acme corp", "Food")]
    none (Except.ok [⟨some "Shopping", some 7⟩]) "acme" "Shopping"
    (by decide) (by decide) (by decide)

/-- C4: whenever assignCategoryId finds a (nonempty, i.e. truthy) category via
the exact or fuzzy memory layer, it upserts memory[sanitizedPayee] and saves
the full mapping exactly when the memory did not already hold that identical
entry; with a config-rule match, no match, or a falsy matched value, the
memory mapping and its persisted state are untouched. -/
theorem c4_memory_learning :
    ∀ (payee : String) (rules mem : Memory) (cache : Option CatMap)
      (fetch : Except String (List RawCategory)) (c : String),
      ((assignCategoryId payee rules mem cache fetch).categoryName = some c → c ≠ "" →
        ((assignCategoryId payee rules mem cache fetch).matchSource = some MatchSource.memoryExact ∨
          (assignCategoryId payee rules mem cache fetch).matchSource = some MatchSource.memoryFuzzy) →
        ((assocGet mem (sanitizePayee payee) ≠ some c →
            (assignCategoryId payee rules mem cache fetch).memory =
                assocSet mem (sanitizePayee payee) c ∧
              (assignCategoryId payee rules mem cache fetch).saved = true) ∧
          (assocGet mem (sanitizePayee payee) = some c →
            (assignCategoryId payee rules mem cache fetch).memory = mem ∧
              (assignCategoryId payee rules mem cache fetch).saved = false))) ∧
      (((assignCategoryId payee rules mem cache fetch).matchSource = some MatchSource.configRule ∨
          (assignCategoryId payee rules mem cache fetch).categoryName = none ∨
          (assignCategoryId payee rules mem cache fetch).categoryName = some "") →
        (assignCategoryId payee rules mem cache fetch).memory = mem ∧
          (assignCategoryId payee rules mem cache fetch).saved = false) := by
  intro payee rules mem cache fetch c
  by_cases hp : payee = ""
  · constructor
    · intro h1
      exfalso
      simp [assignCategoryId, hp] at h1
    · intro _
      simp [assignCategoryId, hp]
  · by_cases hsp : sanitizePayee payee = ""
    · constructor
      · intro h1
        exfalso
        simp [assignCategoryId, hp, hsp] at h1
      · intro _
        simp [assignCategoryId, hp, hsp]
    · rcases hrs : resolveCategoryName (sanitizePayee payee) rules mem with ⟨cn, src⟩
      simp only [assignCategoryId, if_neg hp, if_neg hsp, hrs]
      constructor
      · intro h1 h2 h3
        subst h1
        have hcfg : src ≠ some MatchSource.configRule := by
          rcases h3 with h3 | h3 <;> simp [h3]
        have htr : optTruthy (some c) = true := by simp [optTruthy, h2]
        constructor
        · intro hne
          simp [htr, hcfg, hne]
        · intro he
          have hetr : optTruthy (assocGet mem (sanitizePayee payee)) = true := by
            rw [he]; exact htr
          simp [htr, hcfg, he, hetr]
      · intro hother
        rcases hother with h | h | h
        · simp [h]
        · simp [h, optTruthy]
        · simp [h, optTruthy]

/-- Witness for c4_memory_learning: an exact memory match on a new sanitized
payee is learned and saved. -/
theorem c4_memory_learning_witness :
    (assignCategoryId "ACME CORP X" [] [("acme", "Food")] none (Except.ok [])).memory =
        assocSet [("acme", "Food")] (sanitizePayee "ACME CORP X") "Food" ∧
    (assignCategoryId "ACME CORP X" [] [("acme", "Food")] none (Except.ok [])).saved = true :=
  ((c4_memory_learning "ACME CORP X" [] [("acme", "Food")] none (Except.ok []) "Food").1
    (by decide) (by decide) (by decide)).1 (by decide)

/-- C5 counterexample: when the category-list fetch fails, the resolver does
fail with the CategoryFetchError, but assignCategoryId catches it and returns
a normal result with a null id — the error does not propagate to its
caller. -/
theorem c5_category_fetch_counterexample :
    getCategoryId none (Except.error "network down") "Transport" =
        Except.error "Failed to fetch categories: network down" ∧
    (assignCategoryId "Uber" [("uber", "Transport")] [] none
        (Except.error "network down")).categoryName = some "Transport" ∧
    (assignCategoryId "Uber" [("uber", "Transport")] [] none
        (Except.error "network down")).categoryId = none :=
  ⟨rfl, by decide, by decide⟩

/-- C5 as amended: a failed category-list fetch makes getCategoryId fail with
the CategoryFetchError for every nonempty name, and that error propagates
only as far as assignCategoryId, which catches it, leaves the categories
cache empty, and returns null as a normal categorization result. -/
theorem c5_category_fetch_amended :
    ∀ (payee : String) (rules mem : Memory) (msg : String),
      (assignCategoryId payee rules mem none (Except.error msg)).categoryId = none ∧
      (assignCategoryId payee rules mem none (Except.error msg)).catCache = none ∧
      (∀ name : String, getCategoryId none (Except.error msg) name =
        if name = "" then Except.ok (none, none)
        else Except.error ("Failed to fetch categories: " ++ msg)) := by
  intro payee rules mem msg
  have hget : ∀ name : String, getCategoryId none (Except.error msg) name =
      if name = "" then Except.ok (none, none)
      else Except.error ("Failed to fetch categories: " ++ msg) := by
    intro name
    by_cases hn : name = ""
    · simp [getCategoryId, hn]
    · simp [getCategoryId, getCategoriesMap, hn]
  refine ⟨?_, ?_, hget⟩ <;>
  · by_cases hp : payee = ""
    · simp [assignCategoryId, hp]
    · by_cases hsp : sanitizePayee payee = ""
      · simp [assignCategoryId, hp, hsp]
      · rcases hrs : resolveCategoryName (sanitizePayee payee) rules mem with ⟨cn, src⟩
        simp only [assignCategoryId, if_neg hp, if_neg hsp, hrs]
        rcases cn with _ | c0
        · simp [optTruthy]
        · by_cases hc : c0 = ""
          · simp [optTruthy, hc]
          · have htr : optTruthy (some c0) = true := by simp [optTruthy, hc]
            simp [htr, hget c0, hc]

/-- The head of a dropWhile result fails the predicate. -/
theorem dropWhile_head_not {α : Type} (p : α → Bool) :
    ∀ (l : List α) (c : α), (l.dropWhile p).head? = some c → p c = false := by
  intro l
  induction l with
  | nil => intro c h; simp at h
  | cons a t ih =>
    intro c h
    by_cases hp : p a
    · rw [List.dropWhile_cons_of_pos hp] at h
      exact ih c h
    · rw [List.dropWhile_cons_of_neg hp] at h
      cases h
      simpa using hp

/-- dropWhile is the identity when the head already fails the predicate. -/
theorem dropWhile_eq_self_of_head {α : Type} (p : α → Bool) :
    ∀ (l : List α), (∀ c, l.head? = some c → p c = false) → l.dropWhile p = l := by
  intro l h
  cases l with
  | nil => rfl
  | cons a t =>
    have := h a rfl
    simp [List.dropWhile, this]

/-- The head of a nonempty prefix is the head of the longer list. -/
theorem head?_of_isPrefix {α : Type} {l₁ l₂ : List α} {c : α}
    (h : l₁ <+: l₂) (hc : l₁.head? = some c) : l₂.head? = some c := by
  rcases h with ⟨t, ht⟩
  cases l₁ with
  | nil => simp at hc
  | cons a r =>
    cases hc
    rw [← ht]
    rfl

/-- Trimming is idempotent. -/
theorem trimChars_idem (l : List Char) : trimChars (trimChars l) = trimChars l := by
  have hm₁ : ∀ c, ((l.dropWhile Char.isWhitespace).reverse.dropWhile Char.isWhitespace).reverse.head? = some c →
      Char.isWhitespace c = false := by
    intro c hc
    have hpre : ((l.dropWhile Char.isWhitespace).reverse.dropWhile Char.isWhitespace).reverse <+:
        l.dropWhile Char.isWhitespace := by
      simpa using (List.reverse_prefix).mpr
        (List.dropWhile_suffix (l := (l.dropWhile Char.isWhitespace).reverse) Char.isWhitespace)
    exact dropWhile_head_not Char.isWhitespace l c (head?_of_isPrefix hpre hc)
  unfold trimChars
  rw [dropWhile_eq_self_of_head Char.isWhitespace _ hm₁]
  rw [List.reverse_reverse]
  rw [dropWhile_eq_self_of_head Char.isWhitespace _
    (fun c hc => dropWhile_head_not Char.isWhitespace _ c hc)]

/-- Trimming a string twice equals trimming it once. -/
theorem strTrim_idem (s : String) : strTrim (strTrim s) = strTrim s := by
  simp [strTrim, trimChars_idem]

/-- Trimmed characters come from the original list. -/
theorem trimChars_subset (l : List Char) : trimChars l ⊆ l := by
  intro x hx
  unfold trimChars at hx
  rw [List.mem_reverse] at hx
  have h1 := (List.dropWhile_suffix (l := (l.dropWhile Char.isWhitespace).reverse)
    Char.isWhitespace).sublist.subset hx
  rw [List.mem_reverse] at h1
  exact (List.dropWhile_suffix Char.isWhitespace).sublist.subset h1

/-- A sanitized payee has no dangerous characters and at most 255
characters. -/
theorem sanitizePayee_good (p : String) :
    (∀ ch ∈ (sanitizePayee p).data, dangerousChar ch = false) ∧
      (sanitizePayee p).data.length ≤ 255 := by
  constructor
  · intro ch hch
    simp only [sanitizePayee] at hch
    have h1 : ch ∈ trimChars (p.data.filter fun c => !dangerousChar c) :=
      List.take_subset _ _ hch
    have h2 : ch ∈ p.data.filter (fun c => !dangerousChar c) := trimChars_subset _ h1
    have h3 := List.of_mem_filter h2
    simpa using h3
  · simp only [sanitizePayee]
    rw [List.length_take]
    exact Nat.min_le_left _ _

/-- Entries of an updated association list are old entries or carry the
written key. -/
theorem assocSet_mem {α : Type} :
    ∀ (m : List (String × α)) (key : String) (val : α) (e : String × α),
      e ∈ assocSet m key val → e ∈ m ∨ e.1 = key := by
  intro m key val
  induction m with
  | nil =>
    intro e he
    simp [assocSet] at he
    right
    rw [he]
  | cons a t ih =>
    intro e he
    by_cases h : a.1 = key
    · simp [assocSet, h] at he
      rcases he with he | he
      · right; rw [he]
      · exact Or.inl (List.mem_cons_of_mem _ he)
    · simp [assocSet, h] at he
      rcases he with he | he
      · exact Or.inl (by simp [he])
      · rcases ih e he with h1 | h1
        · exact Or.inl (List.mem_cons_of_mem _ h1)
        · exact Or.inr h1

/-- The memory after one assignCategoryId call is either untouched or an
update at the sanitized payee. -/
theorem assignCategoryId_memory_cases :
    ∀ (payee : String) (rules mem : Memory) (cache : Option CatMap)
      (fetch : Except String (List RawCategory)),
      (assignCategoryId payee rules mem cache fetch).memory = mem ∨
      ∃ c, (assignCategoryId payee rules mem cache fetch).memory =
        assocSet mem (sanitizePayee payee) c := by
  intro payee rules mem cache fetch
  by_cases hp : payee = ""
  · left; simp [assignCategoryId, hp]
  · by_cases hsp : sanitizePayee payee = ""
    · left; simp [assignCategoryId, hp, hsp]
    · rcases hrs : resolveCategoryName (sanitizePayee payee) rules mem with ⟨cn, src⟩
      simp only [assignCategoryId, if_neg hp, if_neg hsp, hrs]
      rcases cn with _ | c0
      · left; simp [optTruthy]
      · by_cases hc : c0 = ""
        · left; simp [optTruthy, hc]
        · have htr : optTruthy (some c0) = true := by simp [optTruthy, hc]
          by_cases hcfg : src = some MatchSource.configRule
          · left; simp [htr, hcfg]
          · by_cases he : optTruthy (assocGet mem (sanitizePayee payee)) = false ∨
                ¬ assocGet mem (sanitizePayee payee) = some c0
            · right
              exact ⟨c0, by simp [htr, hcfg, he]⟩
            · left
              simp [htr, hcfg, he]

/-- Keys of a bumped categoryStats come from the accumulator or are the
bumped payee. -/
theorem bumpPayee_key :
    ∀ (acc : List (String × List (String × Nat))) (p c : String)
      (e : String × List (String × Nat)),
      e ∈ bumpPayee acc p c → (∃ v, (e.1, v) ∈ acc) ∨ e.1 = p := by
  intro acc p c
  induction acc with
  | nil =>
    intro e he
    simp [bumpPayee] at he
    right
    rw [he]
  | cons a t ih =>
    intro e he
    by_cases h : a.1 = p
    · simp [bumpPayee, h] at he
      rcases he with he | he
      · right; rw [he]
      · exact Or.inl ⟨e.2, List.mem_cons_of_mem _ (by simpa using he)⟩
    · simp [bumpPayee, h] at he
      rcases he with he | he
      · exact Or.inl ⟨a.2, by simp [he]⟩
      · rcases ih e he with ⟨v, hv⟩ | h1
        · exact Or.inl ⟨v, List.mem_cons_of_mem _ hv⟩
        · exact Or.inr h1

/-- Keys of the category statistics are trimmed payees of eligible history
transactions. -/
theorem buildCategoryStats_key :
    ∀ (history : List HistoryTx) (acc : List (String × List (String × Nat)))
      (e : String × List (String × Nat)),
      e ∈ history.foldl
          (fun acc tx =>
            if eligibleTx tx then
              bumpPayee acc (strTrim (optOrEmpty tx.payee)) (strTrim (optOrEmpty tx.categoryName))
            else acc) acc →
      (∃ v, (e.1, v) ∈ acc) ∨
      ∃ tx ∈ history, eligibleTx tx = true ∧ e.1 = strTrim (optOrEmpty tx.payee) := by
  intro history
  induction history with
  | nil =>
    intro acc e he
    exact Or.inl ⟨e.2, by simpa using he⟩
  | cons tx rest ih =>
    intro acc e he
    rw [List.foldl_cons] at he
    rcases ih _ e he with ⟨v, hv⟩ | ⟨tx', htx', hel, hkey⟩
    · by_cases hel : eligibleTx tx
      · rw [if_pos hel] at hv
        rcases bumpPayee_key acc _ _ (e.1, v) hv with ⟨v', hv'⟩ | hk
        · exact Or.inl ⟨v', hv'⟩
        · exact Or.inr ⟨tx, by simp, hel, hk⟩
      · rw [if_neg hel] at hv
        exact Or.inl ⟨v, hv⟩
    · exact Or.inr ⟨tx', List.mem_cons_of_mem _ htx', hel, hkey⟩

/-- Keys of the rebuilt memory are keys of the category statistics. -/
theorem buildMemory_key :
    ∀ (stats : List (String × List (String × Nat))) (mem0 : Memory) (e : String × String),
      e ∈ stats.foldl
          (fun mem st =>
            let pc := pickPreferred st.2
            match pc.2 with
            | some c => if c ≠ "" ∧ 2 ≤ pc.1 then assocSet mem st.1 c else mem
            | none => mem) mem0 →
      e ∈ mem0 ∨ ∃ st ∈ stats, e.1 = st.1 := by
  intro stats
  induction stats with
  | nil =>
    intro mem0 e he
    exact Or.inl (by simpa using he)
  | cons st rest ih =>
    intro mem0 e he
    rw [List.foldl_cons] at he
    rcases ih _ e he with hv | ⟨st', hst', hkey⟩
    · rcases hpc : (pickPreferred st.2).2 with _ | c
      · simp only [hpc] at hv
        exact Or.inl hv
      · simp only [hpc] at hv
        by_cases hcond : c ≠ "" ∧ 2 ≤ (pickPreferred st.2).1
        · rw [if_pos hcond] at hv
          rcases assocSet_mem mem0 st.1 c e hv with h1 | h1
          · exact Or.inl h1
          · exact Or.inr ⟨st, by simp, h1⟩
        · rw [if_neg hcond] at hv
          exact Or.inl hv
    · exact Or.inr ⟨st', List.mem_cons_of_mem _ hst', hkey⟩

/-- C10 counterexample: rebuilding memory from a history whose payee contains
the forbidden character < stores that payee unsanitized — the stored key
"<x>" contains a dangerous character. -/
theorem c10_sanitized_keys_counterexample :
    assocGet (buildMemoryFromLunchMoney
        [⟨some "<x>", some "C"⟩, ⟨some "<x>", some "C"⟩]) "<x>" = some "C" ∧
    '<' ∈ ("<x>" : String).data ∧ dangerousChar '<' = true := by decide

/-- C10 as amended: keys written by assignCategoryId's learning step are
sanitized payees — free of the dangerous characters and at most 255
characters — and that invariant is preserved across calls; keys produced by
buildMemoryFromLunchMoney are only guaranteed trimmed and nonempty (the
rebuild path neither strips dangerous characters nor limits length). -/
theorem c10_memory_key_invariants :
    (∀ (payee : String) (rules mem : Memory) (cache : Option CatMap)
      (fetch : Except String (List RawCategory)),
      (∀ e ∈ mem, (∀ ch ∈ e.1.data, dangerousChar ch = false) ∧ e.1.data.length ≤ 255) →
      ∀ e ∈ (assignCategoryId payee rules mem cache fetch).memory,
        (∀ ch ∈ e.1.data, dangerousChar ch = false) ∧ e.1.data.length ≤ 255) ∧
    (∀ (history : List HistoryTx), ∀ e ∈ buildMemoryFromLunchMoney history,
      strTrim e.1 = e.1 ∧ e.1 ≠ "") := by
  constructor
  · intro payee rules mem cache fetch hinv e he
    rcases assignCategoryId_memory_cases payee rules mem cache fetch with hm | ⟨c, hm⟩
    · rw [hm] at he
      exact hinv e he
    · rw [hm] at he
      rcases assocSet_mem mem (sanitizePayee payee) c e he with h1 | h1
      · exact hinv e h1
      · rw [h1]
        exact sanitizePayee_good payee
  · intro history e he
    have h1 := buildMemory_key (buildCategoryStats history) [] e
      (by simpa [buildMemoryFromLunchMoney] using he)
    rcases h1 with h1 | ⟨st, hst, hkey⟩
    · simp at h1
    · have h2 := buildCategoryStats_key history [] st
        (by simpa [buildCategoryStats] using hst)
      rcases h2 with ⟨v, hv⟩ | ⟨tx, _, hel, hk⟩
      · simp at hv
      · have htrim : strTrim e.1 = e.1 := by
          rw [hkey, hk]
          simp [strTrim, trimChars_idem]
        have hne : e.1 ≠ "" := by
          rw [hkey, hk]
          simp only [eligibleTx, Bool.and_eq_true] at hel
          have := hel.1.2
          simpa using this
        exact ⟨htrim, hne⟩

/-- Witness for c10_memory_key_invariants: a learned key is the sanitized
payee of the incoming transaction, and a rebuilt key is trimmed and
nonempty. -/
theorem c10_memory_key_invariants_witness :
    ((∀ ch ∈ ("acme corp", "Food").1.data, dangerousChar ch = false) ∧
      ("acme corp", "Food").1.data.length ≤ 255) ∧
    (strTrim ("Uber", "T").1 = ("Uber", "T").1 ∧ ("Uber", "T").1 ≠ "") :=
  ⟨(c10_memory_key_invariants).1 "acme corp<" [] [("ACME", "Food")] none (Except.ok [])
      (by decide) ("acme corp", "Food") (by decide),
    (c10_memory_key_invariants).2 [⟨some "Uber", some "T"⟩, ⟨some "Uber", some "T"⟩]
      ("Uber", "T") (by decide)⟩

/-- Membership in the JS-Set model: exactly the elements of the input. -/
theorem mem_setList_aux {α : Type} [DecidableEq α] :
    ∀ (l acc : List α) (x : α),
      (x ∈ l.foldl (fun acc x => if x ∈ acc then acc else acc ++ [x]) acc) ↔
        x ∈ acc ∨ x ∈ l := by
  intro l
  induction l with
  | nil => intro acc x; simp
  | cons a t ih =>
    intro acc x
    rw [List.foldl_cons]
    by_cases h : a ∈ acc
    · rw [if_pos h, ih]
      constructor
      · rintro (hx | hx)
        · exact Or.inl hx
        · exact Or.inr (by simp [hx])
      · rintro (hx | hx)
        · exact Or.inl hx
        · rcases List.mem_cons.mp hx with rfl | hx
          · exact Or.inl h
          · exact Or.inr hx
    · rw [if_neg h, ih]
      constructor
      · rintro (hx | hx)
        · rcases List.mem_append.mp hx with hx | hx
          · exact Or.inl hx
          · exact Or.inr (by simpa using Or.inl (by simpa using hx))
        · exact Or.inr (by simp [hx])
      · rintro (hx | hx)
        · exact Or.inl (List.mem_append.mpr (Or.inl hx))
        · rcases List.mem_cons.mp hx with rfl | hx
          · exact Or.inl (by simp)
          · exact Or.inr hx

/-- Membership in setList. -/
theorem mem_setList {α : Type} [DecidableEq α] (l : List α) (x : α) :
    x ∈ setList l ↔ x ∈ l := by
  rw [setList, mem_setList_aux]
  simp

/-- The JS-Set model has no duplicates. -/
theorem setList_nodup {α : Type} [DecidableEq α] (l : List α) : (setList l).Nodup := by
  have aux : ∀ (l acc : List α), acc.Nodup →
      (l.foldl (fun acc x => if x ∈ acc then acc else acc ++ [x]) acc).Nodup := by
    intro l
    induction l with
    | nil => intro acc h; simpa using h
    | cons a t ih =>
      intro acc h
      rw [List.foldl_cons]
      by_cases ha : a ∈ acc
      · rw [if_pos ha]; exact ih acc h
      · rw [if_neg ha]
        exact ih _ (by simp [List.nodup_append, h, ha])
  exact aux l [] (by simp)

/-- setList and toFinset agree. -/
theorem setList_toFinset {α : Type} [DecidableEq α] (l : List α) :
    (setList l).toFinset = l.toFinset := by
  ext x
  simp [mem_setList]

/-- The size of the JS Set is the cardinality of the finite set of
elements. -/
theorem setList_length {α : Type} [DecidableEq α] (l : List α) :
    (setList l).length = l.toFinset.card := by
  rw [← setList_toFinset, List.toFinset_card_of_nodup (setList_nodup l)]

/-- The size of the JS-style intersection is the cardinality of the finite
intersection (stated at the bigram type used by the scorer). -/
theorem setList_inter_length (A B : List (Char × Char)) :
    ((setList A).filter (fun x => x ∈ setList B)).length =
      (A.toFinset ∩ B.toFinset).card := by
  have hnd : ((setList A).filter (fun x => x ∈ setList B)).Nodup :=
    (setList_nodup A).filter _
  have hts : ((setList A).filter (fun x => x ∈ setList B)).toFinset =
      A.toFinset ∩ B.toFinset := by
    ext x
    simp [List.mem_filter, mem_setList]
  rw [← List.toFinset_card_of_nodup hnd, hts]

/-- Case folding preserves length. -/
theorem toLowerStr_length (s : String) : (toLowerStr s).data.length = s.data.length := by
  simp [toLowerStr]

/-- Case folding preserves emptiness. -/
theorem toLowerStr_empty_iff (s : String) : toLowerStr s = "" ↔ s = "" := by
  constructor
  · intro h
    have hd := congrArg String.data h
    simp only [toLowerStr] at hd
    exact str_data_inj (List.map_eq_nil_iff.mp hd)
  · rintro rfl
    rfl

/-- Lists of length at least two have a bigram. -/
theorem strBigrams_ne_nil {l : List Char} (h : 2 ≤ l.length) : strBigrams l ≠ [] := by
  cases l with
  | nil => simp at h
  | cons a t =>
    cases t with
    | nil => simp at h
    | cons b r => simp [strBigrams]

/-- A case-folded string of length at least two has a nonempty bigram set. -/
theorem bigram_card_pos (s : String) (h : 2 ≤ (toLowerStr s).data.length) :
    0 < (bigramFinset s).card := by
  rcases List.exists_mem_of_ne_nil _ (strBigrams_ne_nil h) with ⟨x, hx⟩
  exact Finset.card_pos.mpr ⟨x, List.mem_toFinset.mpr hx⟩

/-- Equal case-folded nonempty strings score 1. -/
theorem calculateSimilarity_eq_one {a b : String} (heq : toLowerStr a = toLowerStr b)
    (ha : a ≠ "") : calculateSimilarity a b = 1 := by
  have hb : b ≠ "" := by
    intro h
    subst h
    exact ha ((toLowerStr_empty_iff a).mp (by rw [heq]; rfl))
  simp only [calculateSimilarity]
  rw [if_neg (by simp [ha, hb]), if_pos heq]

/-- Distinct case-folded strings score 0 when either input is falsy or too
short for bigrams. -/
theorem calculateSimilarity_eq_zero {a b : String} (hne : toLowerStr a ≠ toLowerStr b)
    (h : a = "" ∨ b = "" ∨ (toLowerStr a).data.length < 2 ∨ (toLowerStr b).data.length < 2) :
    calculateSimilarity a b = 0 := by
  by_cases ha : a = ""
  · simp [calculateSimilarity, ha]
  · by_cases hb : b = ""
    · simp [calculateSimilarity, hb]
    · have hl : (toLowerStr a).data.length < 2 ∨ (toLowerStr b).data.length < 2 := by
        rcases h with h | h | h | h
        · exact absurd h ha
        · exact absurd h hb
        · exact Or.inl h
        · exact Or.inr h
      simp only [calculateSimilarity]
      rw [if_neg (by simp [ha, hb]), if_neg hne, if_pos (by simpa using hl)]

/-- The main branch of calculateSimilarity, spelled out. -/
theorem calculateSimilarity_core {a b : String} (hne : toLowerStr a ≠ toLowerStr b)
    (hla : 2 ≤ (toLowerStr a).data.length) (hlb : 2 ≤ (toLowerStr b).data.length) :
    calculateSimilarity a b =
      mkRat (2 * ((setList (strBigrams (toLowerStr a).data)).filter
          (fun x => x ∈ setList (strBigrams (toLowerStr b).data))).length)
        ((setList (strBigrams (toLowerStr a).data)).length +
          (setList (strBigrams (toLowerStr b).data)).length) := by
  have ha : a ≠ "" := by
    intro h
    subst h
    simp [toLowerStr] at hla
  have hb : b ≠ "" := by
    intro h
    subst h
    simp [toLowerStr] at hlb
  simp only [calculateSimilarity]
  rw [if_neg (by simp [ha, hb]), if_neg hne,
    if_neg (by simp only [Bool.or_eq_true, decide_eq_true_eq, not_or]; constructor <;> omega)]

/-- C8: the similarity score is the Dice coefficient over the case-folded
bigram sets wherever bigrams exist on both sides; it is symmetric and bounded
in [0, 1]; case-folded-equal strings score 1 when nonempty; and distinct
strings score 0 when either side is empty or shorter than two characters. -/
theorem c8_similarity_dice :
    (∀ a b : String, 2 ≤ (toLowerStr a).data.length → 2 ≤ (toLowerStr b).data.length →
      calculateSimilarity a b = diceCoefficient a b) ∧
    (∀ a b : String, calculateSimilarity a b = calculateSimilarity b a) ∧
    (∀ a b : String, 0 ≤ calculateSimilarity a b ∧ calculateSimilarity a b ≤ 1) ∧
    (∀ a b : String, toLowerStr a = toLowerStr b → a ≠ "" → calculateSimilarity a b = 1) ∧
    (∀ a b : String, toLowerStr a ≠ toLowerStr b →
      (a = "" ∨ b = "" ∨ (toLowerStr a).data.length < 2 ∨ (toLowerStr b).data.length < 2) →
      calculateSimilarity a b = 0) := by
  refine ⟨?_, ?_, ?_, fun a b heq ha => calculateSimilarity_eq_one heq ha,
    fun a b hne h => calculateSimilarity_eq_zero hne h⟩
  · intro a b hla hlb
    by_cases heq : toLowerStr a = toLowerStr b
    · have ha : a ≠ "" := by
        intro h
        subst h
        simp [toLowerStr] at hla
      rw [calculateSimilarity_eq_one heq ha]
      have hset : bigramFinset a = bigramFinset b := by
        unfold bigramFinset
        rw [heq]
      have hc : 0 < (bigramFinset b).card := bigram_card_pos b hlb
      have hcq : (0 : ℚ) < ((bigramFinset b).card : ℚ) := by exact_mod_cast hc
      rw [diceCoefficient, hset, Finset.inter_self]
      rw [show ((bigramFinset b).card : ℚ) + ((bigramFinset b).card : ℚ) =
        2 * ((bigramFinset b).card : ℚ) by ring]
      rw [div_self (by linarith)]
    · rw [calculateSimilarity_core heq hla hlb, Rat.mkRat_eq_div]
      simp only [setList_inter_length, setList_length]
      unfold diceCoefficient bigramFinset
      push_cast
      rfl
  · intro a b
    by_cases ha : a = ""
    · simp [calculateSimilarity, ha]
    · by_cases hb : b = ""
      · simp [calculateSimilarity, hb]
      · by_cases heq : toLowerStr a = toLowerStr b
        · rw [calculateSimilarity_eq_one heq ha, calculateSimilarity_eq_one heq.symm hb]
        · by_cases hla : 2 ≤ (toLowerStr a).data.length
          · by_cases hlb : 2 ≤ (toLowerStr b).data.length
            · rw [calculateSimilarity_core heq hla hlb,
                calculateSimilarity_core (Ne.symm heq) hlb hla]
              simp only [setList_inter_length, setList_length]
              rw [Finset.inter_comm,
                Nat.add_comm ((strBigrams (toLowerStr a).data).toFinset.card)]
            · rw [calculateSimilarity_eq_zero heq (Or.inr (Or.inr (Or.inr (by omega)))),
                calculateSimilarity_eq_zero (Ne.symm heq) (Or.inr (Or.inr (Or.inl (by omega))))]
          · rw [calculateSimilarity_eq_zero heq (Or.inr (Or.inr (Or.inl (by omega)))),
              calculateSimilarity_eq_zero (Ne.symm heq) (Or.inr (Or.inr (Or.inr (by omega))))]
  · intro a b
    by_cases ha : a = ""
    · simp [calculateSimilarity, ha]
    · by_cases hb : b = ""
      · simp [calculateSimilarity, hb]
      · by_cases heq : toLowerStr a = toLowerStr b
        · rw [calculateSimilarity_eq_one heq ha]
          norm_num
        · by_cases hla : 2 ≤ (toLowerStr a).data.length
          · by_cases hlb : 2 ≤ (toLowerStr b).data.length
            · rw [calculateSimilarity_core heq hla hlb, Rat.mkRat_eq_div]
              simp only [setList_inter_length, setList_length]
              have h1 : ((strBigrams (toLowerStr a).data).toFinset ∩
                  (strBigrams (toLowerStr b).data).toFinset).card ≤
                  (strBigrams (toLowerStr a).data).toFinset.card :=
                Finset.card_le_card Finset.inter_subset_left
              have h2 : ((strBigrams (toLowerStr a).data).toFinset ∩
                  (strBigrams (toLowerStr b).data).toFinset).card ≤
                  (strBigrams (toLowerStr b).data).toFinset.card :=
                Finset.card_le_card Finset.inter_subset_right
              have hpa : 0 < (strBigrams (toLowerStr a).data).toFinset.card :=
                bigram_card_pos a hla
              have hpb : 0 < (strBigrams (toLowerStr b).data).toFinset.card :=
                bigram_card_pos b hlb
              have hdenom : (0 : ℚ) < ((strBigrams (toLowerStr a).data).toFinset.card : ℚ) +
                  ((strBigrams (toLowerStr b).data).toFinset.card : ℚ) := by
                have : 0 < (strBigrams (toLowerStr a).data).toFinset.card +
                    (strBigrams (toLowerStr b).data).toFinset.card := by omega
                exact_mod_cast this
              constructor
              · apply div_nonneg
                · push_cast
                  positivity
                · push_cast
                  linarith
              · rw [div_le_one (by push_cast; linarith)]
                have hnum : 2 * ((strBigrams (toLowerStr a).data).toFinset ∩
                    (strBigrams (toLowerStr b).data).toFinset).card ≤
                    (strBigrams (toLowerStr a).data).toFinset.card +
                    (strBigrams (toLowerStr b).data).toFinset.card := by omega
                push_cast
                exact_mod_cast hnum
            · rw [calculateSimilarity_eq_zero heq (Or.inr (Or.inr (Or.inr (by omega))))]
              norm_num
          · rw [calculateSimilarity_eq_zero heq (Or.inr (Or.inr (Or.inl (by omega))))]
            norm_num

/-- Witness for c8_similarity_dice at the specification's test strings. -/
theorem c8_similarity_dice_witness :
    calculateSimilarity "STARBUCKS #123" "STARBUCKS" =
        diceCoefficient "STARBUCKS #123" "STARBUCKS" ∧
    calculateSimilarity "Night" "night" = 1 ∧
    calculateSimilarity "" "x" = 0 :=
  ⟨(c8_similarity_dice).1 "STARBUCKS #123" "STARBUCKS" (by decide) (by decide),
    (c8_similarity_dice).2.2.2.1 "Night" "night" (by decide) (by decide),
    (c8_similarity_dice).2.2.2.2 "" "x" (by decide) (Or.inl rfl)⟩

/-- Reading back the key just written. -/
theorem assocGet_assocSet_self {α : Type} :
    ∀ (m : List (String × α)) (k : String) (v : α), assocGet (assocSet m k v) k = some v := by
  intro m k v
  induction m with
  | nil => simp [assocSet, assocGet]
  | cons e es ih =>
    by_cases h : e.1 = k
    · simp [assocSet, assocGet, h]
    · simp [assocSet, assocGet, h, ih]

/-- Other keys are unaffected by a write. -/
theorem assocGet_assocSet_ne {α : Type} :
    ∀ (m : List (String × α)) (k q : String) (v : α), q ≠ k →
      assocGet (assocSet m k v) q = assocGet m q := by
  intro m k q v hqk
  induction m with
  | nil => simp [assocSet, assocGet, Ne.symm hqk]
  | cons e es ih =>
    by_cases h : e.1 = k
    · simp [assocSet, assocGet, h, Ne.symm hqk]
    · simp [assocSet, assocGet, h, ih]

/-- A key misses exactly when it is not among the stored keys. -/
theorem assocGet_none_iff {α : Type} :
    ∀ (m : List (String × α)) (k : String),
      assocGet m k = none ↔ k ∉ m.map Prod.fst := by
  intro m k
  induction m with
  | nil => simp [assocGet]
  | cons e es ih =>
    by_cases h : e.1 = k
    · simp [assocGet, h]
    · rw [assocGet, if_neg h, ih, List.map_cons, List.mem_cons, not_or]
      have hke : ¬ k = e.1 := fun hh => h hh.symm
      simp [hke]

/-- A successful lookup is a stored entry. -/
theorem assocGet_mem {α : Type} :
    ∀ (m : List (String × α)) (k : String) (v : α),
      assocGet m k = some v → (k, v) ∈ m := by
  intro m k v
  induction m with
  | nil => simp [assocGet]
  | cons e es ih =>
    intro h
    by_cases he : e.1 = k
    · rw [assocGet, if_pos he] at h
      cases h
      rw [← he]
      simp
    · rw [assocGet, if_neg he] at h
      exact List.mem_cons_of_mem _ (ih h)

/-- With distinct keys, every stored entry is found by lookup. -/
theorem assocGet_of_mem_nodup {α : Type} :
    ∀ (m : List (String × α)) (k : String) (v : α),
      (m.map Prod.fst).Nodup → (k, v) ∈ m → assocGet m k = some v := by
  intro m k v
  induction m with
  | nil => simp
  | cons e es ih =>
    intro hnd hmem
    rw [List.map_cons, List.nodup_cons] at hnd
    rcases List.mem_cons.mp hmem with h | h
    · rw [← h]
      simp [assocGet]
    · have hk : e.1 ≠ k := by
        intro he
        exact hnd.1 (by rw [he]; exact List.mem_map.mpr ⟨(k, v), h, rfl⟩)
      rw [assocGet, if_neg hk]
      exact ih hnd.2 h

/-- Count of the bumped category after one bump. -/
theorem bumpCat_get_self :
    ∀ (cs : List (String × Nat)) (c : String),
      assocGet (bumpCat cs c) c = some ((assocGet cs c).getD 0 + 1) := by
  intro cs c
  induction cs with
  | nil => simp [bumpCat, assocGet]
  | cons e es ih =>
    by_cases h : e.1 = c
    · simp [bumpCat, assocGet, h]
    · simp [bumpCat, assocGet, h, ih]

/-- Counts of other categories survive a bump. -/
theorem bumpCat_get_ne :
    ∀ (cs : List (String × Nat)) (c d : String), d ≠ c →
      assocGet (bumpCat cs c) d = assocGet cs d := by
  intro cs c d hdc
  induction cs with
  | nil => simp [bumpCat, assocGet, Ne.symm hdc]
  | cons e es ih =>
    by_cases h : e.1 = c
    · simp [bumpCat, assocGet, h, Ne.symm hdc]
    · simp [bumpCat, assocGet, h, ih]

/-- Folding the occurrence list over bumpCat accumulates exact counts. -/
theorem foldl_bumpCat_getD :
    ∀ (os : List String) (cs : List (String × Nat)) (d : String),
      (assocGet (os.foldl bumpCat cs) d).getD 0 = (assocGet cs d).getD 0 + os.count d := by
  intro os
  induction os with
  | nil => intro cs d; simp
  | cons o os ih =>
    intro cs d
    rw [List.foldl_cons, ih]
    by_cases h : d = o
    · subst h
      rw [bumpCat_get_self]
      rw [List.count_cons]
      simp
      omega
    · rw [bumpCat_get_ne cs o d h]
      rw [List.count_cons]
      simp [h, Ne.symm h]

/-- A category misses in the accumulated counts exactly when it misses in the
accumulator and never occurs. -/
theorem foldl_bumpCat_none :
    ∀ (os : List String) (cs : List (String × Nat)) (d : String),
      (assocGet (os.foldl bumpCat cs) d = none ↔ assocGet cs d = none ∧ os.count d = 0) := by
  intro os
  induction os with
  | nil => intro cs d; simp
  | cons o os ih =>
    intro cs d
    rw [List.foldl_cons, ih]
    by_cases h : d = o
    · subst h
      rw [bumpCat_get_self]
      rw [List.count_cons]
      simp
    · rw [bumpCat_get_ne cs o d h]
      rw [List.count_cons]
      simp [h, Ne.symm h]

/-- Bumping an existing category keeps the key list. -/
theorem bumpCat_keys_mem :
    ∀ (cs : List (String × Nat)) (c : String), assocGet cs c ≠ none →
      (bumpCat cs c).map Prod.fst = cs.map Prod.fst := by
  intro cs c
  induction cs with
  | nil => intro h; simp [assocGet] at h
  | cons e es ih =>
    intro h
    by_cases he : e.1 = c
    · simp [bumpCat, he]
    · rw [assocGet, if_neg he] at h
      simp [bumpCat, he, ih h]

/-- Bumping a new category appends its key. -/
theorem bumpCat_keys_new :
    ∀ (cs : List (String × Nat)) (c : String), assocGet cs c = none →
      (bumpCat cs c).map Prod.fst = cs.map Prod.fst ++ [c] := by
  intro cs c
  induction cs with
  | nil => intro _; simp [bumpCat]
  | cons e es ih =>
    intro h
    by_cases he : e.1 = c
    · rw [assocGet, if_pos he] at h
      simp at h
    · rw [assocGet, if_neg he] at h
      simp [bumpCat, he, ih h]

/-- A found first position is stable under appending. -/
theorem firstPos_append_of_mem :
    ∀ (l t : List String) (c : String), c ∈ l → firstPos (l ++ t) c = firstPos l c := by
  intro l t c
  induction l with
  | nil => simp
  | cons a l ih =>
    intro hc
    by_cases ha : a = c
    · simp [firstPos, List.findIdx_cons, ha]
    · have hc' : c ∈ l := by
        rcases List.mem_cons.mp hc with h | h
        · exact absurd h.symm ha
        · exact h
      simp only [firstPos, List.cons_append, List.findIdx_cons]
      have hb : (a == c) = false := by simp [ha]
      rw [hb]
      simp only [cond_false]
      have := ih hc'
      simp only [firstPos] at this
      omega

/-- The first position of an absent element skips the whole list. -/
theorem firstPos_append_of_not_mem :
    ∀ (l t : List String) (c : String), c ∉ l →
      firstPos (l ++ t) c = l.length + firstPos t c := by
  intro l t c
  induction l with
  | nil => simp
  | cons a l ih =>
    intro hc
    have ha : a ≠ c := fun h => hc (by simp [h])
    have hc' : c ∉ l := fun h => hc (List.mem_cons_of_mem _ h)
    have hb : (a == c) = false := by simp [ha]
    simp only [firstPos, List.cons_append, List.findIdx_cons, hb, cond_false]
    rw [show (a :: l).length = l.length + 1 by simp]
    have := ih hc'
    simp only [firstPos] at this
    omega

/-- Present elements have a first position inside the list. -/
theorem firstPos_lt_length :
    ∀ (l : List String) (c : String), c ∈ l → firstPos l c < l.length := by
  intro l c
  induction l with
  | nil => simp
  | cons a l ih =>
    intro hc
    by_cases ha : a = c
    · simp [firstPos, List.findIdx_cons, ha]
    · have hc' : c ∈ l := by
        rcases List.mem_cons.mp hc with h | h
        · exact absurd h.symm ha
        · exact h
      have hb : (a == c) = false := by simp [ha]
      simp only [firstPos, List.findIdx_cons, hb, cond_false, List.length_cons]
      have := ih hc'
      simp only [firstPos] at this
      omega

/-- Keys of the per-payee category counts: no duplicates, all drawn from the
occurrence list, and ordered by first occurrence. -/
theorem catsOf_keys (os : List String) :
    ((os.foldl bumpCat []).map Prod.fst).Nodup ∧
    (∀ k ∈ (os.foldl bumpCat []).map Prod.fst, k ∈ os) ∧
    List.Pairwise (fun k₁ k₂ => firstPos os k₁ < firstPos os k₂)
      ((os.foldl bumpCat []).map Prod.fst) := by
  induction os using List.reverseRecOn with
  | nil => simp
  | append_singleton os c ih =>
    rcases ih with ⟨hnd, hmem, hpw⟩
    have hfold : (os ++ [c]).foldl bumpCat [] = bumpCat (os.foldl bumpCat []) c := by
      rw [List.foldl_append]
      rfl
    by_cases hc : assocGet (os.foldl bumpCat []) c = none
    · have hkeys := bumpCat_keys_new _ _ hc
      have hcnot : c ∉ os := by
        rw [foldl_bumpCat_none] at hc
        exact List.count_eq_zero.mp hc.2
      have hknot : c ∉ (os.foldl bumpCat []).map Prod.fst := fun hk => hcnot (hmem c hk)
      rw [hfold, hkeys]
      refine ⟨?_, ?_, ?_⟩
      · exact List.Nodup.append hnd (by simp) (fun a hka hca => by
          rw [List.mem_singleton] at hca
          subst hca
          exact hknot hka)
      · intro k hk
        rcases List.mem_append.mp hk with hk | hk
        · exact List.mem_append.mpr (Or.inl (hmem k hk))
        · exact List.mem_append.mpr (Or.inr hk)
      · rw [List.pairwise_append]
        refine ⟨?_, by simp, ?_⟩
        · refine hpw.imp_of_mem ?_
          intro a b ha hb hab
          rw [firstPos_append_of_mem os [c] a (hmem a ha),
            firstPos_append_of_mem os [c] b (hmem b hb)]
          exact hab
        · intro a ha b hb
          rw [List.mem_singleton] at hb
          rw [hb]
          rw [firstPos_append_of_mem os [c] a (hmem a ha),
            firstPos_append_of_not_mem os [c] c hcnot]
          have h1 : firstPos os a < os.length := firstPos_lt_length os a (hmem a ha)
          omega
    · have hkeys := bumpCat_keys_mem _ _ hc
      have hcmem : c ∈ os := by
        by_contra hcnot
        exact hc (foldl_bumpCat_none os [] c |>.mpr ⟨rfl, List.count_eq_zero.mpr hcnot⟩)
      rw [hfold, hkeys]
      refine ⟨hnd, ?_, ?_⟩
      · intro k hk
        exact List.mem_append.mpr (Or.inl (hmem k hk))
      · refine hpw.imp_of_mem ?_
        intro a b ha hb hab
        rw [firstPos_append_of_mem os [c] a (hmem a ha),
          firstPos_append_of_mem os [c] b (hmem b hb)]
        exact hab

/-- Running strict maximum over a list, with explicit accumulator: either the
accumulator survives and bounds everything, or the result is the first entry
attaining the maximum above the accumulator. -/
theorem pickPreferred_aux :
    ∀ (cs : List (String × Nat)) (m : Nat) (p : Option String),
      (cs.foldl (fun acc e => if e.2 > acc.1 then (e.2, some e.1) else acc) (m, p) = (m, p) ∧
        ∀ e ∈ cs, e.2 ≤ m) ∨
      (∃ i e, cs.get? i = some e ∧
        cs.foldl (fun acc e => if e.2 > acc.1 then (e.2, some e.1) else acc) (m, p) =
          (e.2, some e.1) ∧ m < e.2 ∧ (∀ e' ∈ cs, e'.2 ≤ e.2) ∧
        (∀ j e', j < i → cs.get? j = some e' → e'.2 < e.2)) := by
  intro cs
  induction cs with
  | nil => intro m p; left; simp
  | cons e₀ cs ih =>
    intro m p
    rw [List.foldl_cons]
    by_cases h0 : e₀.2 > m
    · rw [if_pos h0]
      rcases ih e₀.2 (some e₀.1) with ⟨hr, hb⟩ | ⟨i, e, hi, hr, hm, hb, hearly⟩
      · right
        refine ⟨0, e₀, rfl, by rw [hr], h0, ?_, ?_⟩
        · intro e' he'
          rcases List.mem_cons.mp he' with rfl | he'
          · exact le_refl _
          · exact hb e' he'
        · intro j e' hj _
          omega
      · right
        refine ⟨i + 1, e, hi, hr, by omega, ?_, ?_⟩
        · intro e' he'
          rcases List.mem_cons.mp he' with rfl | he'
          · omega
          · exact hb e' he'
        · intro j e' hj hje
          cases j with
          | zero =>
            cases hje
            omega
          | succ j' => exact hearly j' e' (by omega) hje
    · rw [if_neg h0]
      rcases ih m p with ⟨hr, hb⟩ | ⟨i, e, hi, hr, hm, hb, hearly⟩
      · left
        refine ⟨hr, ?_⟩
        intro e' he'
        rcases List.mem_cons.mp he' with rfl | he'
        · omega
        · exact hb e' he'
      · right
        refine ⟨i + 1, e, hi, hr, hm, ?_, ?_⟩
        · intro e' he'
          rcases List.mem_cons.mp he' with rfl | he'
          · omega
          · exact hb e' he'
        · intro j e' hj hje
          cases j with
          | zero =>
            cases hje
            omega
          | succ j' => exact hearly j' e' (by omega) hje

/-- A successful pick is the first entry attaining the maximal count. -/
theorem pickPreferred_spec (cs : List (String × Nat)) (n : Nat) (c : String)
    (h : pickPreferred cs = (n, some c)) :
    ∃ i e, cs.get? i = some e ∧ e.1 = c ∧ e.2 = n ∧ (∀ e' ∈ cs, e'.2 ≤ n) ∧
      (∀ j e', j < i → cs.get? j = some e' → e'.2 < n) := by
  rw [pickPreferred] at h
  rcases pickPreferred_aux cs 0 none with ⟨hr, _⟩ | ⟨i, e, hi, hr, _, hb, hearly⟩
  · rw [hr] at h
    simp at h
  · rw [hr] at h
    have he2 : e.2 = n := congrArg Prod.fst h
    have he1 : e.1 = c := by
      have := congrArg Prod.snd h
      simpa using this
    refine ⟨i, e, hi, he1, he2, ?_, ?_⟩
    · intro e' he'
      exact he2 ▸ hb e' he'
    · intro j e' hj hje
      exact he2 ▸ hearly j e' hj hje

/-- Looking up the bumped payee in categoryStats. -/
theorem bumpPayee_get_self :
    ∀ (acc : List (String × List (String × Nat))) (p c : String),
      assocGet (bumpPayee acc p c) p = some (bumpCat ((assocGet acc p).getD []) c) := by
  intro acc p c
  induction acc with
  | nil => simp [bumpPayee, assocGet]
  | cons e es ih =>
    by_cases h : e.1 = p
    · simp [bumpPayee, assocGet, h]
    · simp [bumpPayee, assocGet, h, ih]

/-- Other payees are unaffected by a bump. -/
theorem bumpPayee_get_ne :
    ∀ (acc : List (String × List (String × Nat))) (p c q : String), q ≠ p →
      assocGet (bumpPayee acc p c) q = assocGet acc q := by
  intro acc p c q hqp
  induction acc with
  | nil => simp [bumpPayee, assocGet, Ne.symm hqp]
  | cons e es ih =>
    by_cases h : e.1 = p
    · simp [bumpPayee, assocGet, h, Ne.symm hqp]
    · simp [bumpPayee, assocGet, h, ih]

/-- Unfolding of the occurrence list over a cons. -/
theorem occList_cons (tx : HistoryTx) (rest : List HistoryTx) (p : String) :
    occList (tx :: rest) p =
      if (eligibleTx tx && (strTrim (optOrEmpty tx.payee) == p)) = true then
        strTrim (optOrEmpty tx.categoryName) :: occList rest p
      else occList rest p := by
  by_cases h : (eligibleTx tx && (strTrim (optOrEmpty tx.payee) == p)) = true
  · rw [if_pos h]
    simp [occList, List.filter_cons, h]
  · rw [if_neg h]
    simp only [occList, List.filter_cons]
    rw [if_neg h]

/-- Looking up a payee in the accumulated category statistics yields the
bumpCat fold of its occurrence list. -/
theorem buildCategoryStats_get :
    ∀ (history : List HistoryTx) (acc : List (String × List (String × Nat))) (p : String),
      assocGet (history.foldl
          (fun acc tx =>
            if eligibleTx tx then
              bumpPayee acc (strTrim (optOrEmpty tx.payee)) (strTrim (optOrEmpty tx.categoryName))
            else acc) acc) p =
        match assocGet acc p with
        | some cs => some ((occList history p).foldl bumpCat cs)
        | none =>
          if occList history p = [] then none
          else some ((occList history p).foldl bumpCat []) := by
  intro history
  induction history with
  | nil =>
    intro acc p
    cases hga : assocGet acc p <;> simp [occList, hga]
  | cons tx rest ih =>
    intro acc p
    rw [List.foldl_cons, occList_cons]
    by_cases hel : (eligibleTx tx && (strTrim (optOrEmpty tx.payee) == p)) = true
    · have hel2 : eligibleTx tx = true ∧ strTrim (optOrEmpty tx.payee) = p := by
        simpa using hel
      have hel1 := hel2.1
      have hp := hel2.2
      rw [if_pos hel, if_pos hel1, hp, ih, bumpPayee_get_self]
      cases hga : assocGet acc p
      · simp [hga, List.foldl_cons]
      · simp [hga, List.foldl_cons]
    · rw [if_neg hel]
      by_cases hel1 : eligibleTx tx = true
      · have hp : strTrim (optOrEmpty tx.payee) ≠ p := by
          intro hh
          exact hel (by simp [hel1, hh])
        rw [if_pos hel1, ih, bumpPayee_get_ne _ _ _ p (Ne.symm hp)]
      · rw [if_neg hel1, ih]

/-- Keys of a bumped categoryStats accumulator. -/
theorem bumpPayee_keys :
    ∀ (acc : List (String × List (String × Nat))) (p c : String),
      (bumpPayee acc p c).map Prod.fst =
        if p ∈ acc.map Prod.fst then acc.map Prod.fst else acc.map Prod.fst ++ [p] := by
  intro acc p c
  induction acc with
  | nil => simp [bumpPayee]
  | cons e es ih =>
    by_cases h : e.1 = p
    · simp [bumpPayee, h]
    · by_cases hm : p ∈ es.map Prod.fst
      · have hcond : p ∈ (e :: es).map Prod.fst := by simp [hm]
        rw [if_pos hcond]
        simp [bumpPayee, h, ih, hm]
      · have hcond : p ∉ (e :: es).map Prod.fst := by simp [Ne.symm h, hm]
        rw [if_neg hcond]
        simp [bumpPayee, h, ih, hm]

/-- The category statistics never store a payee twice. -/
theorem buildCategoryStats_keys_nodup :
    ∀ (history : List HistoryTx) (acc : List (String × List (String × Nat))),
      (acc.map Prod.fst).Nodup →
      ((history.foldl
          (fun acc tx =>
            if eligibleTx tx then
              bumpPayee acc (strTrim (optOrEmpty tx.payee)) (strTrim (optOrEmpty tx.categoryName))
            else acc) acc).map Prod.fst).Nodup := by
  intro history
  induction history with
  | nil => intro acc h; simpa using h
  | cons tx rest ih =>
    intro acc h
    rw [List.foldl_cons]
    apply ih
    by_cases hel : eligibleTx tx = true
    · rw [if_pos hel, bumpPayee_keys]
      by_cases hm : strTrim (optOrEmpty tx.payee) ∈ acc.map Prod.fst
      · rw [if_pos hm]
        exact h
      · rw [if_neg hm]
        exact List.Nodup.append h (by simp) (fun a ha hb => by
          rw [List.mem_singleton] at hb
          subst hb
          exact hm ha)
    · rw [if_neg hel]
      exact h

/-- Looking up a payee in the rebuilt memory reduces to the pick of its
statistics entry, provided statistics keys are distinct. -/
theorem buildMemory_get :
    ∀ (stats : List (String × List (String × Nat))) (mem0 : Memory) (p : String),
      (stats.map Prod.fst).Nodup →
      assocGet (stats.foldl
          (fun mem e =>
            let pc := pickPreferred e.2
            match pc.2 with
            | some c => if c ≠ "" ∧ 2 ≤ pc.1 then assocSet mem e.1 c else mem
            | none => mem) mem0) p =
        match assocGet stats p with
        | some cats =>
          (match (pickPreferred cats).2 with
           | some c =>
             if c ≠ "" ∧ 2 ≤ (pickPreferred cats).1 then some c else assocGet mem0 p
           | none => assocGet mem0 p)
        | none => assocGet mem0 p := by
  intro stats
  induction stats with
  | nil =>
    intro mem0 p _
    simp [assocGet]
  | cons st rest ih =>
    intro mem0 p hnd
    rw [List.map_cons, List.nodup_cons] at hnd
    rw [List.foldl_cons, ih _ p hnd.2]
    by_cases hp : st.1 = p
    · have hrest : assocGet rest p = none := by
        rw [assocGet_none_iff]
        rw [← hp]
        exact hnd.1
      rw [hrest]
      have hcons : assocGet (st :: rest) p = some st.2 := by
        rw [assocGet, if_pos hp]
      rw [hcons]
      rcases hpc : (pickPreferred st.2).2 with _ | c
      · simp only [hpc]
      · by_cases hcond : c ≠ "" ∧ 2 ≤ (pickPreferred st.2).1
        · simp only [hpc, if_pos hcond]
          rw [← hp]
          exact assocGet_assocSet_self mem0 st.1 c
        · simp only [hpc, if_neg hcond]
    · have hcons : assocGet (st :: rest) p = assocGet rest p := by
        rw [assocGet, if_neg hp]
      rw [hcons]
      have hmse : assocGet
          ((fun mem (e : String × List (String × Nat)) =>
            let pc := pickPreferred e.2
            match pc.2 with
            | some c => if c ≠ "" ∧ 2 ≤ pc.1 then assocSet mem e.1 c else mem
            | none => mem) mem0 st) p = assocGet mem0 p := by
        simp only []
        rcases hpc : (pickPreferred st.2).2 with _ | c
        · simp only [hpc]
        · by_cases hcond : c ≠ "" ∧ 2 ≤ (pickPreferred st.2).1
          · simp only [hpc, if_pos hcond]
            exact assocGet_assocSet_ne mem0 st.1 p c (fun hh => hp hh.symm)
          · simp only [hpc, if_neg hcond]
      cases hga : assocGet rest p
      · simp only [hga]
        exact hmse
      · simp only [hga]
        rw [hmse]

/-- Core of the rebuild-from-history claim: a learned association is backed by
at least two occurrences of a strictly first-seen-maximal category. -/
theorem buildMemory_learned :
    ∀ (history : List HistoryTx) (p c : String),
      assocGet (buildMemoryFromLunchMoney history) p = some c →
      2 ≤ (occList history p).count c ∧
      (∀ d, (occList history p).count d ≤ (occList history p).count c) ∧
      (∀ d, (occList history p).count d = (occList history p).count c →
        firstPos (occList history p) c ≤ firstPos (occList history p) d) := by
  intro history p c h
  have hnd : ((buildCategoryStats history).map Prod.fst).Nodup := by
    have := buildCategoryStats_keys_nodup history [] (by simp)
    simpa [buildCategoryStats] using this
  have hget := buildMemory_get (buildCategoryStats history) [] p hnd
  rw [buildMemoryFromLunchMoney] at h
  rw [hget] at h
  cases hstats : assocGet (buildCategoryStats history) p with
  | none =>
    simp only [hstats] at h
    simp [assocGet] at h
  | some cats =>
    simp only [hstats] at h
    rcases hpc : (pickPreferred cats).2 with _ | c0
    · simp only [hpc] at h
      simp [assocGet] at h
    · simp only [hpc] at h
      by_cases hcond : c0 ≠ "" ∧ 2 ≤ (pickPreferred cats).1
      · rw [if_pos hcond] at h
        obtain rfl : c = c0 := (Option.some.inj h).symm
        have hcontent : assocGet (buildCategoryStats history) p =
            if occList history p = [] then none
            else some ((occList history p).foldl bumpCat []) := by
          have h0 := buildCategoryStats_get history [] p
          simpa [buildCategoryStats, assocGet] using h0
        rw [hcontent] at hstats
        by_cases hos : occList history p = []
        · rw [if_pos hos] at hstats
          cases hstats
        · rw [if_neg hos] at hstats
          have hcats : cats = (occList history p).foldl bumpCat [] :=
            (Option.some.inj hstats).symm
          subst hcats
          have hcount : ∀ d,
              (assocGet ((occList history p).foldl bumpCat []) d).getD 0 =
                (occList history p).count d := by
            intro d
            have := foldl_bumpCat_getD (occList history p) [] d
            simpa [assocGet] using this
          obtain ⟨knd, kmem, kpw⟩ := catsOf_keys (occList history p)
          have hpick : pickPreferred ((occList history p).foldl bumpCat []) =
              ((pickPreferred ((occList history p).foldl bumpCat [])).1, some c) := by
            rw [← hpc]
          obtain ⟨i, e, hi, he1, he2, hb, hearly⟩ := pickPreferred_spec _ _ _ hpick
          have hmem_e : e ∈ (occList history p).foldl bumpCat [] := List.get?_mem hi
          have hgetc : assocGet ((occList history p).foldl bumpCat []) c = some e.2 := by
            apply assocGet_of_mem_nodup _ _ _ knd
            rw [← he1]
            simpa using hmem_e
          have hn_eq : e.2 = (occList history p).count c := by
            have := hcount c
            rw [hgetc] at this
            simpa using this
          have h2n : 2 ≤ e.2 := by
            rw [he2]
            exact hcond.2
          refine ⟨by omega, ?_, ?_⟩
          · intro d
            cases hgd : assocGet ((occList history p).foldl bumpCat []) d with
            | none =>
              have h0 := hcount d
              rw [hgd] at h0
              simp at h0
              omega
            | some nd =>
              have hnd_eq : nd = (occList history p).count d := by
                have h0 := hcount d
                rw [hgd] at h0
                simpa using h0
              have hmemd : (d, nd) ∈ (occList history p).foldl bumpCat [] :=
                assocGet_mem _ _ _ hgd
              have hle := hb (d, nd) hmemd
              simp only at hle
              omega
          · intro d hd
            have hdpos : 0 < (occList history p).count d := by omega
            have hgd : assocGet ((occList history p).foldl bumpCat []) d ≠ none := by
              intro hnone
              rw [foldl_bumpCat_none] at hnone
              omega
            cases hgd2 : assocGet ((occList history p).foldl bumpCat []) d with
            | none => exact absurd hgd2 hgd
            | some nd =>
              have hnd_eq : nd = (occList history p).count d := by
                have h0 := hcount d
                rw [hgd2] at h0
                simpa using h0
              have hmemd : (d, nd) ∈ (occList history p).foldl bumpCat [] :=
                assocGet_mem _ _ _ hgd2
              obtain ⟨j, hj⟩ := List.mem_iff_get?.mp hmemd
              rcases Nat.lt_trichotomy j i with hji | hji | hji
              · exfalso
                have hlt := hearly j (d, nd) hji hj
                simp only at hlt
                omega
              · subst hji
                rw [hi] at hj
                have he_eq : e = (d, nd) := Option.some.inj hj
                have hcd : c = d := by
                  rw [← he1, he_eq]
                rw [hcd]
              · obtain ⟨hi_lt, hi_get⟩ := List.get?_eq_some.mp hi
                obtain ⟨hj_lt, hj_get⟩ := List.get?_eq_some.mp hj
                have hklen : ((((occList history p).foldl bumpCat []).map Prod.fst)).length =
                    ((occList history p).foldl bumpCat []).length := List.length_map _ _
                have hpair := List.pairwise_iff_get.mp kpw
                  ⟨i, by rw [hklen]; exact hi_lt⟩ ⟨j, by rw [hklen]; exact hj_lt⟩
                  (by exact Fin.mk_lt_mk.mpr hji)
                have hgi : (((occList history p).foldl bumpCat []).map Prod.fst).get
                    ⟨i, by rw [hklen]; exact hi_lt⟩ = c := by
                  rw [List.get_map]
                  rw [show (((occList history p).foldl bumpCat []).get ⟨i, hi_lt⟩) = e from hi_get]
                  exact he1
                have hgj : (((occList history p).foldl bumpCat []).map Prod.fst).get
                    ⟨j, by rw [hklen]; exact hj_lt⟩ = d := by
                  rw [List.get_map]
                  rw [show (((occList history p).foldl bumpCat []).get ⟨j, hj_lt⟩) = (d, nd)
                    from hj_get]
                rw [hgi, hgj] at hpair
                exact le_of_lt hpair
      · rw [if_neg hcond] at h
        simp [assocGet] at h

/-- C7: rebuildMemoryFromHistory maps a payee to a category only if that
category occurs at least twice for the payee, is most frequent among its
trimmed category occurrences, and, on frequency ties, occurs first; a payee
with at most one eligible occurrence is never learned. -/
theorem c7_rebuild_majority :
    (∀ (history : List HistoryTx) (p c : String),
      assocGet (buildMemoryFromLunchMoney history) p = some c →
      2 ≤ (occList history p).count c ∧
      (∀ d, (occList history p).count d ≤ (occList history p).count c) ∧
      (∀ d, (occList history p).count d = (occList history p).count c →
        firstPos (occList history p) c ≤ firstPos (occList history p) d)) ∧
    (∀ (history : List HistoryTx) (p : String), (occList history p).length ≤ 1 →
      assocGet (buildMemoryFromLunchMoney history) p = none) := by
  constructor
  · exact buildMemory_learned
  · intro history p hlen
    cases hq : assocGet (buildMemoryFromLunchMoney history) p with
    | none => rfl
    | some c =>
      exfalso
      have h1 := (buildMemory_learned history p c hq).1
      have h2 : (occList history p).count c ≤ (occList history p).length :=
        List.count_le_length _ _
      omega

/-- Witness for c7_rebuild_majority on the specification's example: Uber with
three Transport and one Food learns Transport; a single-occurrence payee is
not learned. -/
theorem c7_rebuild_majority_witness :
    (2 ≤ (occList [⟨some "Uber", some "Transport"⟩, ⟨some "Uber", some "Food"⟩,
        ⟨some "Uber", some "Transport"⟩, ⟨some "Uber", some "Transport"⟩,
        ⟨some "Once", some "X"⟩] "Uber").count "Transport" ∧
      (∀ d, (occList [⟨some "Uber", some "Transport"⟩, ⟨some "Uber", some "Food"⟩,
          ⟨some "Uber", some "Transport"⟩, ⟨some "Uber", some "Transport"⟩,
          ⟨some "Once", some "X"⟩] "Uber").count d ≤
        (occList [⟨some "Uber", some "Transport"⟩, ⟨some "Uber", some "Food"⟩,
          ⟨some "Uber", some "Transport"⟩, ⟨some "Uber", some "Transport"⟩,
          ⟨some "Once", some "X"⟩] "Uber").count "Transport") ∧
      (∀ d, (occList [⟨some "Uber", some "Transport"⟩, ⟨some "Uber", some "Food"⟩,
          ⟨some "Uber", some "Transport"⟩, ⟨some "Uber", some "Transport"⟩,
          ⟨some "Once", some "X"⟩] "Uber").count d =
        (occList [⟨some "Uber", some "Transport"⟩, ⟨some "Uber", some "Food"⟩,
          ⟨some "Uber", some "Transport"⟩, ⟨some "Uber", some "Transport"⟩,
          ⟨some "Once", some "X"⟩] "Uber").count "Transport" →
        firstPos (occList [⟨some "Uber", some "Transport"⟩, ⟨some "Uber", some "Food"⟩,
          ⟨some "Uber", some "Transport"⟩, ⟨some "Uber", some "Transport"⟩,
          ⟨some "Once", some "X"⟩] "Uber") "Transport" ≤
        firstPos (occList [⟨some "Uber", some "Transport"⟩, ⟨some "Uber", some "Food"⟩,
          ⟨some "Uber", some "Transport"⟩, ⟨some "Uber", some "Transport"⟩,
          ⟨some "Once", some "X"⟩] "Uber") d)) ∧
    assocGet (buildMemoryFromLunchMoney [⟨some "Uber", some "Transport"⟩,
      ⟨some "Uber", some "Food"⟩, ⟨some "Uber", some "Transport"⟩,
      ⟨some "Uber", some "Transport"⟩, ⟨some "Once", some "X"⟩]) "Once" = none :=
  ⟨(c7_rebuild_majority).1 [⟨some "Uber", some "Transport"⟩, ⟨some "Uber", some "Food"⟩,
      ⟨some "Uber", some "Transport"⟩, ⟨some "Uber", some "Transport"⟩,
      ⟨some "Once", some "X"⟩] "Uber" "Transport" (by decide),
    (c7_rebuild_majority).2 [⟨some "Uber", some "Transport"⟩, ⟨some "Uber", some "Food"⟩,
      ⟨some "Uber", some "Transport"⟩, ⟨some "Uber", some "Transport"⟩,
      ⟨some "Once", some "X"⟩] "Once" (by decide)⟩
